import Mathlib

/-! UPE–Riemann (Giant): primality oracle, Goldbach searcher and input validation.

A shallow embedding of `script.js`.  JavaScript `BigInt` values are modelled
by `Int`; the `BigInt` operators `%` and `/` truncate towards zero
(`Int.tmod`, `Int.tdiv`) and `%` raises a `RangeError` for a zero divisor.
The `while` loops are modelled by structural recursion on an iteration budget;
running out of budget is reported as the outcome `diverge`, so that
termination is proved about the model and not assumed by it.  Counted `for`
loops recurse on the number of iterations that remain.  The searcher and the
validation are written over an arbitrary oracle and an arbitrary search
function, of which `upeGoldbach` and `computeUPE` are the instances of the
script; the built-in `BigInt(string)` follows ECMAScript `StringToBigInt`.
-/

namespace UPE

/-! ## Outcomes of a JavaScript computation -/

/-- Outcome of running a piece of the script: a returned value, a thrown
`RangeError` (BigInt division by zero), or no result within the budget. -/
inductive Run (α : Type) where
  | ret (a : α)
  | rangeError
  | diverge
  deriving DecidableEq

/-- Sequencing of two computations. -/
def Run.bind {α β : Type} : Run α → (α → Run β) → Run β
  | .ret a, f => f a
  | .rangeError, _ => .rangeError
  | .diverge, _ => .diverge

instance : Monad Run where
  pure := Run.ret
  bind := Run.bind

/-- BigInt `a % b`: remainder of the division truncated towards zero; a zero
divisor throws. -/
def bigRem (a b : Int) : Run Int :=
  if b = 0 then .rangeError else .ret (Int.tmod a b)

/-! ## Constants -/

/-- Small primes for quick trial division. -/
def SMALL_PRIMES : List Int :=
  [2, 3, 5, 7, 11, 13, 17, 19, 23, 29, 31, 37, 41, 43, 47, 53, 59, 61, 67, 71, 73, 79, 83, 89, 97]

/-- Fixed Miller–Rabin witness bases. -/
def MR_BASES_64 : List Int := [2, 3, 5, 7, 11, 13, 17]

/-- Safety cap of the search loop. -/
def MAX_STEPS : Nat := 5000000

/-! ## modPow

The function is transcribed together with a record of the values it computes:
`modPowTrace` returns the result of `modPow` and, in order, the reduced base,
every product before its reduction and every reduced value.  `modPow` itself
is the result component of that run, so a statement about the record is a
statement about the computation that `modPow` performs. -/

/-- The `while (exp > 0n)` loop of `modPow`; `fuel` bounds the iterations.
Besides the final `res` it returns every intermediate value it computes, each
product before its reduction followed by the reduced value. -/
def modPowLoopTrace (mod : Int) : Nat → Int → Int → Int → Run (Int × List Int)
  | fuel, base, exp, res =>
    if exp > 0 then
      match fuel with
      | 0 => .diverge
      | fuel + 1 =>
        (if Int.land exp 1 ≠ 0 then
            bigRem (res * base) mod >>= fun r => .ret (r, [res * base, r])
          else .ret (res, [])) >>= fun step =>
        bigRem (base * base) mod >>= fun base1 =>
        modPowLoopTrace mod fuel base1 (exp >>> 1) step.1 >>= fun out =>
        .ret (out.1, step.2 ++ [base * base, base1] ++ out.2)
    else .ret (res, [])

/-- The body of `modPow(base, exp, mod)`: `base %= mod`, then the loop, which
halves `exp`, so that `exp.natAbs` iterations are always enough.  The record
of intermediate values starts with the reduced base. -/
def modPowTrace (base exp mod : Int) : Run (Int × List Int) :=
  bigRem base mod >>= fun base0 =>
  modPowLoopTrace mod exp.natAbs base0 exp 1 >>= fun out =>
  .ret (out.1, base0 :: out.2)

/-- Binary modular exponentiation `modPow(base, exp, mod)`: the value returned
by the run `modPowTrace`. -/
def modPow (base exp mod : Int) : Run Int :=
  modPowTrace base exp mod >>= fun out => .ret out.1

/-- The loop of `modPow` without the record of intermediate values; it is the
loop `modPowLoopTrace` with the record erased (`modPowLoop_erase`) and serves
the proofs about the result. -/
def modPowLoop (mod : Int) : Nat → Int → Int → Int → Run Int
  | fuel, base, exp, res =>
    if exp > 0 then
      match fuel with
      | 0 => .diverge
      | fuel + 1 =>
        (if Int.land exp 1 ≠ 0 then bigRem (res * base) mod else .ret res) >>= fun res1 =>
        bigRem (base * base) mod >>= fun base1 =>
        modPowLoop mod fuel base1 (exp >>> 1) res1
    else .ret res

/-! ## isProbablePrime -/

/-- The `for (const p of SMALL_PRIMES)` loop: `some b` when the loop body
returns `b`, `none` when the loop runs to its end. -/
def smallPrimeLoop (n : Int) : List Int → Run (Option Bool)
  | [] => .ret none
  | p :: ps =>
    if n = p then .ret (some true)
    else
      bigRem n p >>= fun r =>
      if r = 0 then .ret (some (decide (n = p)))
      else smallPrimeLoop n ps

/-- The loop `while ((d & 1n) === 0n) { d >>= 1n; s++; }`. -/
def stripTwos : Nat → Int → Int → Run (Int × Int)
  | fuel, d, s =>
    if Int.land d 1 = 0 then
      match fuel with
      | 0 => .diverge
      | fuel + 1 => stripTwos fuel (d >>> 1) (s + 1)
    else .ret (d, s)

/-- The loop `for (let r = 1n; r < s; r++)` of `tryBase`, run for the
`count` iterations that remain. -/
def squareLoop (n : Int) : Nat → Int → Run Bool
  | 0, _ => .ret false
  | count + 1, x =>
    bigRem (x * x) n >>= fun x1 =>
    if x1 = n - 1 then .ret true else squareLoop n count x1

/-- The closure `tryBase` of `isProbablePrime`, with its captured variables
`n`, `d`, `s` as parameters. -/
def tryBase (n d s a : Int) : Run Bool :=
  bigRem a n >>= fun r =>
  if r = 0 then .ret true
  else
    modPow a d n >>= fun x =>
    if x = 1 ∨ x = n - 1 then .ret true
    else squareLoop n (s - 1).toNat x

/-- The loop `for (const a of MR_BASES_64)`. -/
def basesLoop (n d s : Int) : List Int → Run Bool
  | [] => .ret true
  | a :: as =>
    tryBase n d s a >>= fun ok =>
    if !ok then .ret false else basesLoop n d s as

/-- The primality oracle `isProbablePrime(n)`. -/
def isProbablePrime (n : Int) : Run Bool :=
  if n < 2 then .ret false
  else
    smallPrimeLoop n SMALL_PRIMES >>= fun early =>
    match early with
    | some b => .ret b
    | none =>
      stripTwos (n - 1).natAbs (n - 1) 0 >>= fun ds =>
      basesLoop n ds.1 ds.2 MR_BASES_64

/-! ## upeGoldbach -/

/-- Result record of `upeGoldbach`: `{ok:true, p, q, t, delta}` or
`{ok:false, msg}`. -/
inductive SearchResult where
  | found (p q t delta : Int)
  | failure (msg : String)
  deriving DecidableEq

/-- Message of the domain failure. -/
def MSG_DOMAIN : String := "E must be an even integer ≥ 4"

/-- Message of the exhausted search. -/
def MSG_LIMIT : String := "Search limit exceeded. Try a different E."

/-- The condition `p > 1n && isProbablePrime(p) && isProbablePrime(q)`, with
the short-circuit evaluation of `&&`, over an arbitrary primality oracle. -/
def pairTest (oracle : Int → Run Bool) (p q : Int) : Run Bool :=
  if p > 1 then
    oracle p >>= fun b1 =>
    if b1 then oracle q else .ret false
  else .ret false

/-- The `while (true)` loop of `upeGoldbach`, over an arbitrary primality
oracle; `fuel` bounds the number of executions of the loop body. -/
def searchLoop (oracle : Int → Run Bool) (x xMod3 : Int) : Nat → Int → Nat → Run SearchResult
  | 0, _, _ => .diverge
  | fuel + 1, t, steps =>
    if xMod3 = 0 ∧ Int.tmod t 3 = 0 then
      if steps + 1 > MAX_STEPS then .ret (.failure MSG_LIMIT)
      else searchLoop oracle x xMod3 fuel (t + 2) (steps + 1)
    else
      pairTest oracle (x - t) (x + t) >>= fun hit =>
      if hit then .ret (.found (x - t) (x + t) t (2 * t))
      else if steps + 1 > MAX_STEPS then .ret (.failure MSG_LIMIT)
      else searchLoop oracle x xMod3 fuel (t + 2) (steps + 1)

/-- Body of `upeGoldbach` over an arbitrary oracle and loop budget. -/
def upeGoldbachWith (oracle : Int → Run Bool) (fuel : Nat) (E : Int) : Run SearchResult :=
  if Int.tmod E 2 ≠ 0 ∨ E < 4 then .ret (.failure MSG_DOMAIN)
  else
    let x := Int.tdiv E 2
    let t : Int := if Int.tmod x 2 = 0 then 1 else 2
    let xMod3 := Int.tmod x 3
    searchLoop oracle x xMod3 fuel t 0

/-- The searcher `upeGoldbach(E)`: the loop body runs at most `MAX_STEPS + 1`
times before the step cap breaks the loop. -/
def upeGoldbach (E : Int) : Run SearchResult :=
  upeGoldbachWith isProbablePrime (MAX_STEPS + 1) E


/-! ## toBigInt -/

/-- Code points matched by `\s` in a JavaScript regular expression: the
white space and line terminator characters, which are also the ones that
`BigInt(string)` trims. -/
def isJsWhiteSpace (c : Char) : Bool :=
  decide (c.toNat ∈ [9, 10, 11, 12, 13, 32, 160, 5760, 8232, 8233, 8239, 8287, 12288, 65279]) ||
    (decide (8192 ≤ c.toNat) && decide (c.toNat ≤ 8202))

/-- The characters deleted by `.replace(/[\s,_]/g, '')`: white space, comma
(code 44) and underscore (code 95). -/
def isSeparator (c : Char) : Bool :=
  isJsWhiteSpace c || decide (c.toNat = 44) || decide (c.toNat = 95)

/-- The text after `.replace(/[\s,_]/g, '')`. -/
def removeSeparators (cs : List Char) : List Char :=
  cs.filter fun c => !isSeparator c

/-- Value of a digit character `0-9`, `a-z`, `A-Z` in a numeric literal. -/
def digitVal (c : Char) : Option Nat :=
  if 48 ≤ c.toNat ∧ c.toNat ≤ 57 then some (c.toNat - 48)
  else if 97 ≤ c.toNat ∧ c.toNat ≤ 122 then some (c.toNat - 87)
  else if 65 ≤ c.toNat ∧ c.toNat ≤ 90 then some (c.toNat - 55)
  else none

/-- Reads digits of the given radix onto the accumulator; `none` at the first
character that is not such a digit. -/
def digitsValue (radix : Nat) : List Char → Nat → Option Nat
  | [], acc => some acc
  | c :: cs, acc =>
    match digitVal c with
    | some v => if v < radix then digitsValue radix cs (acc * radix + v) else none
    | none => none

/-- A non-empty run of digits of the given radix, as a number. -/
def parseDigits (radix : Nat) (cs : List Char) : Option Nat :=
  match cs with
  | [] => none
  | _ :: _ => digitsValue radix cs 0

/-- Removes leading and trailing white space. -/
def trimJs (cs : List Char) : List Char :=
  ((cs.dropWhile isJsWhiteSpace).reverse.dropWhile isJsWhiteSpace).reverse

/-- The radix announced by a prefix `0x`/`0X`, `0o`/`0O` or `0b`/`0B`. -/
def radixPrefix (cs : List Char) : Option Nat :=
  match cs with
  | z :: x :: _ =>
    if z.toNat = 48 then
      if x.toNat = 120 ∨ x.toNat = 88 then some 16
      else if x.toNat = 111 ∨ x.toNat = 79 then some 8
      else if x.toNat = 98 ∨ x.toNat = 66 then some 2
      else none
    else none
  | _ => none

/-- A decimal literal with an optional sign `+` (code 43) or `-` (code 45). -/
def parseSignedDecimal (cs : List Char) : Option Int :=
  match cs with
  | [] => none
  | c :: rest =>
    if c.toNat = 43 then (parseDigits 10 rest).map Int.ofNat
    else if c.toNat = 45 then (parseDigits 10 rest).map fun v => - Int.ofNat v
    else (parseDigits 10 cs).map Int.ofNat

/-- The built-in conversion `BigInt(string)` (ECMAScript `StringToBigInt`),
`none` standing for the `SyntaxError` it throws: the trimmed text is empty
(value 0), a `0x`, `0o` or `0b` literal without sign, or decimal digits with
an optional sign. -/
def stringToBigInt (cs : List Char) : Option Int :=
  if trimJs cs = [] then some 0
  else
    match radixPrefix (trimJs cs) with
    | some radix => (parseDigits radix ((trimJs cs).drop 2)).map Int.ofNat
    | none => parseSignedDecimal (trimJs cs)

/-- Arguments of `toBigInt`: a BigInt or a string.  (The branch for a
`number` argument is floating point and is not reached from `computeUPE`,
whose argument is the text of the input field.) -/
inductive JsValue where
  | bigint (n : Int)
  | text (s : String)

/-- The helper `toBigInt(x)`; `none` is the `null` of the `catch` branch. -/
def toBigInt : JsValue → Option Int
  | .bigint n => some n
  | .text s => stringToBigInt (removeSeparators s.toList)

/-! ## computeUPE -/

/-- What `computeUPE` writes to the output element: a message, or the HTML
block of a Goldbach pair (of which only the BigInt fields are modelled; the
normalised value and the nearest Riemann zero are floating point). -/
inductive Display where
  | message (msg : String)
  | pair (p q t delta : Int)
  deriving DecidableEq

/-- Message for an unparsable input. -/
def MSG_INVALID : String := "Invalid input. Enter an even integer (digits only)."

/-- Message of `computeUPE` for an odd or too small input. -/
def MSG_DOMAIN_UI : String := "E must be an even integer ≥ 4."

/-- Message for an input above the limit. -/
def MSG_TOO_LARGE : String := "E is too large. Max allowed is 4×10^18."

/-- The constant `LIMIT` of `computeUPE`. -/
def LIMIT : Int := 4000000000000000000

/-- The part of `computeUPE` after the result `res` of the search is known. -/
def render : SearchResult → Display
  | .failure msg => .message msg
  | .found p q t delta => .pair p q t delta

/-- The body of `computeUPE` after `let E = toBigInt(...)`, over an arbitrary
search function. -/
def computeUPEFrom (search : Int → Run SearchResult) : Option Int → Run Display
  | none => .ret (.message MSG_INVALID)
  | some E =>
    if E < 4 ∨ Int.tmod E 2 ≠ 0 then .ret (.message MSG_DOMAIN_UI)
    else if E > LIMIT then .ret (.message MSG_TOO_LARGE)
    else search E >>= fun res => .ret (render res)

/-- The function `computeUPE()`, with the text of the input field as argument
and the content written to the output element as result. -/
def computeUPE (input : String) : Run Display :=
  computeUPEFrom upeGoldbach (toBigInt (.text input))

/-! ## Reference notions used in the statements -/

/-- Strong probable prime condition for base `a`, where `n - 1 = d * 2 ^ s`:
`a ^ d ≡ 1` or `a ^ (d * 2 ^ j) ≡ -1 (mod n)` for some `j < s`. -/
def StrongProbablePrime (n d s a : Nat) : Prop :=
  a ^ d % n = 1 ∨ ∃ j, j < s ∧ a ^ (d * 2 ^ j) % n = n - 1

/-- The entries of `SMALL_PRIMES` as natural numbers. -/
def smallPrimesNat : List Nat :=
  [2, 3, 5, 7, 11, 13, 17, 19, 23, 29, 31, 37, 41, 43, 47, 53, 59, 61, 67, 71, 73, 79, 83, 89, 97]

/-- The entries of `MR_BASES_64` as natural numbers. -/
def mrBasesNat : List Nat := [2, 3, 5, 7, 11, 13, 17]

/-- The loop `for (k = 2; k * k <= n; k++) if (n % k == 0) return false;` of
the naive reference test; `fuel` bounds the iterations. -/
def naiveLoop (n : Nat) : Nat → Nat → Bool
  | 0, _ => true
  | fuel + 1, k =>
    if n < k * k then true
    else if n % k = 0 then false
    else naiveLoop n fuel (k + 1)

/-- Naive reference primality test: trial division of `n` by every integer
from 2 up to the square root of `n`. -/
def naiveIsPrime (n : Nat) : Bool :=
  decide (2 ≤ n) && naiveLoop n n 2

/-- The character is a digit that `digitsValue` accepts for the radix. -/
def digitOk (radix : Nat) (c : Char) : Bool :=
  match digitVal c with
  | some v => decide (v < radix)
  | none => false

/-- Decimal digit `0-9`. -/
def isDecimalDigit (c : Char) : Bool :=
  decide (48 ≤ c.toNat) && decide (c.toNat ≤ 57)

/-- Digit of the given radix 2, 8 or 16 (no digit for another radix). -/
def isRadixDigit (radix : Nat) (c : Char) : Bool :=
  (decide (radix = 2) && decide (48 ≤ c.toNat) && decide (c.toNat ≤ 49)) ||
  (decide (radix = 8) && decide (48 ≤ c.toNat) && decide (c.toNat ≤ 55)) ||
  (decide (radix = 16) &&
    ((decide (48 ≤ c.toNat) && decide (c.toNat ≤ 57)) ||
     (decide (97 ≤ c.toNat) && decide (c.toNat ≤ 102)) ||
     (decide (65 ≤ c.toNat) && decide (c.toNat ≤ 70))))

/-- A decimal integer written with digits only, optionally signed. -/
def isSignedDecimal (cs : List Char) : Bool :=
  match cs with
  | [] => false
  | c :: rest =>
    if c.toNat = 43 ∨ c.toNat = 45 then !rest.isEmpty && rest.all isDecimalDigit
    else cs.all isDecimalDigit

/-- A literal `0x…`, `0o…` or `0b…` (either case of the letter) with at least
one digit of its radix and no other character. -/
def isRadixLiteral (cs : List Char) : Bool :=
  match radixPrefix cs with
  | some radix => !(cs.drop 2).isEmpty && (cs.drop 2).all (isRadixDigit radix)
  | none => false

/-- The texts that `BigInt(string)` accepts, once separators are removed: the
empty text, a signed decimal, or a prefixed hexadecimal, octal or binary literal. -/
def isBigIntText (cs : List Char) : Bool :=
  cs.isEmpty || isSignedDecimal cs || isRadixLiteral cs

/-- The search loop with the mod-3 skip branch removed: every displacement is
tested. -/
def searchLoopNoSkip (oracle : Int → Run Bool) (x : Int) : Nat → Int → Nat → Run SearchResult
  | 0, _, _ => .diverge
  | fuel + 1, t, steps =>
    pairTest oracle (x - t) (x + t) >>= fun hit =>
    if hit then .ret (.found (x - t) (x + t) t (2 * t))
    else if steps + 1 > MAX_STEPS then .ret (.failure MSG_LIMIT)
    else searchLoopNoSkip oracle x fuel (t + 2) (steps + 1)

/-- The variant of `upeGoldbach` in which the skip branch is removed. -/
def upeGoldbachNoSkip (E : Int) : Run SearchResult :=
  if Int.tmod E 2 ≠ 0 ∨ E < 4 then .ret (.failure MSG_DOMAIN)
  else
    let x := Int.tdiv E 2
    let t : Int := if Int.tmod x 2 = 0 then 1 else 2
    searchLoopNoSkip isProbablePrime x (MAX_STEPS + 1) t 0

/-- Both endpoints of the displacement `t` pass the test of the search loop:
`x - t > 1` and the oracle returns `true` on `x - t` and on `x + t`. -/
def Passes (oracle : Int → Run Bool) (x t : Int) : Prop :=
  x - t > 1 ∧ oracle (x - t) = .ret true ∧ oracle (x + t) = .ret true

/-- The loop stops at the displacement `t`: it is not skipped by the mod-3
rule and both endpoints pass. -/
def Stops (oracle : Int → Run Bool) (x xMod3 t : Int) : Prop :=
  ¬ (xMod3 = 0 ∧ Int.tmod t 3 = 0) ∧ Passes oracle x t

/-- Starting displacement of the search: 1 if `x` is even, 2 if `x` is odd. -/
def startT (x : Int) : Int := if x % 2 = 0 then 1 else 2

/-! ## A certificate for the oracle below one million

A composite `n ≤ 10 ^ 6` that passes the trial division stage is `p * m`
with `p` its least prime factor, `101 ≤ p ≤ 1000` and `p ≤ m`.  If the oracle
accepted `n`, then `2 ^ (m - 1) ≡ 1 (mod p)`, so `m - 1` is a multiple of the
order of 2 modulo `p`.  The table lists these orders; the checker confirms
each order and runs the oracle on the remaining candidates. -/

/-- For every `p` in `[101, 1000]` with `2 ^ (p - 1) ≡ 1 (mod p)`, in
increasing order of `p`: the order of 2 modulo `p` and its prime divisors. -/
def orderTable : List (Nat × List Nat) :=
  [(100, [2, 5]), (51, [3, 17]), (106, [2, 53]), (36, [2, 3]), (28, [2, 7]), (7, [7]),
   (130, [2, 5, 13]), (68, [2, 17]), (138, [2, 3, 23]), (148, [2, 37]), (15, [3, 5]),
   (52, [2, 13]), (162, [2, 3]), (83, [83]), (172, [2, 43]), (178, [2, 89]), (180, [2, 3, 5]),
   (95, [5, 19]), (96, [2, 3]), (196, [2, 7]), (99, [3, 11]), (210, [2, 3, 5, 7]), (37, [37]),
   (226, [2, 113]), (76, [2, 19]), (29, [29]), (119, [7, 17]), (24, [2, 3]), (50, [2, 5]),
   (16, [2]), (131, [131]), (268, [2, 67]), (135, [3, 5]), (92, [2, 23]), (70, [2, 5, 7]),
   (94, [2, 47]), (292, [2, 73]), (102, [2, 3, 17]), (155, [5, 31]), (156, [2, 3, 13]),
   (316, [2, 79]), (30, [2, 3, 5]), (21, [3, 7]), (10, [2, 5]), (346, [2, 173]),
   (348, [2, 3, 29]), (88, [2, 11]), (179, [179]), (183, [3, 61]), (372, [2, 3, 31]),
   (378, [2, 3, 7]), (191, [191]), (388, [2, 97]), (44, [2, 11]), (200, [2, 5]),
   (204, [2, 3, 17]), (418, [2, 11, 19]), (420, [2, 3, 5, 7]), (43, [43]), (72, [2, 3]),
   (73, [73]), (442, [2, 13, 17]), (224, [2, 7]), (76, [2, 19]), (460, [2, 5, 23]),
   (231, [3, 7, 11]), (466, [2, 233]), (239, [239]), (243, [3]), (490, [2, 5, 7]),
   (166, [2, 83]), (251, [251]), (508, [2, 127]), (260, [2, 5, 13]), (522, [2, 3, 29]),
   (540, [2, 3, 5]), (546, [2, 3, 7, 13]), (556, [2, 139]), (40, [2, 5]), (562, [2, 281]),
   (284, [2, 71]), (114, [2, 3, 19]), (144, [2, 3]), (586, [2, 293]), (148, [2, 37]),
   (299, [13, 23]), (25, [5]), (303, [3, 101]), (612, [2, 3, 17]), (154, [2, 7, 11]),
   (618, [2, 3, 103]), (45, [3, 5]), (64, [2]), (214, [2, 107]), (28, [2, 7]), (323, [17, 19]),
   (652, [2, 163]), (658, [2, 7, 47]), (660, [2, 3, 5, 11]), (48, [2, 3]), (676, [2, 13]),
   (22, [2, 11]), (230, [2, 5, 23]), (700, [2, 5, 7]), (708, [2, 3, 59]), (359, [359]),
   (121, [11]), (244, [2, 61]), (246, [2, 3, 41]), (371, [7, 53]), (375, [3, 5]),
   (756, [2, 3, 7]), (380, [2, 5, 19]), (384, [2, 3]), (772, [2, 193]), (786, [2, 3, 131]),
   (796, [2, 199]), (404, [2, 101]), (270, [2, 3, 5]), (820, [2, 5, 41]), (411, [3, 137]),
   (826, [2, 7, 59]), (828, [2, 3, 23]), (419, [419]), (852, [2, 3, 71]), (428, [2, 107]),
   (858, [2, 3, 11, 13]), (431, [431]), (876, [2, 3, 73]), (55, [5, 11]), (882, [2, 3, 7]),
   (443, [443]), (906, [2, 3, 151]), (91, [7, 13]), (153, [3, 17]), (464, [2, 29]),
   (117, [3, 13]), (940, [2, 5, 47]), (946, [2, 11, 43]), (68, [2, 17]), (483, [3, 7, 23]),
   (194, [2, 97]), (488, [2, 61]), (491, [491]), (495, [3, 5, 11]), (332, [2, 83])]

/-- Checks the candidates `m = 1 + k * i`, `i < count`, for the factor `p`:
each is out of range, fails the base-2 Fermat test, or is rejected by the oracle. -/
def candLoop (p k : Nat) : Nat → Bool
  | 0 => true
  | i + 1 =>
    (decide (1 + k * i < p) || decide (10 ^ 6 < p * (1 + k * i)) ||
      decide (2 ^ (p * (1 + k * i) - 1) % (p * (1 + k * i)) ≠ 1) ||
      decide (isProbablePrime ((p * (1 + k * i) : Nat) : Int) = .ret false)) &&
    candLoop p k i

/-- Checks one table row: `k` is the order of 2 modulo `p`, witnessed by its
prime divisors `rs`, and every candidate cofactor of `p` is handled. -/
def certRow (p k : Nat) (rs : List Nat) : Bool :=
  decide (0 < k) && decide (2 ^ k % p = 1) && decide (rs.prod ^ 10 % k = 0) &&
  rs.all (fun r => naiveIsPrime r && decide (2 ^ (k / r) % p ≠ 1)) &&
  candLoop p k (10 ^ 6 / p / k + 1)

/-- Walks `p = p0, p0 + 1, ...` for `count` values, consuming one table row
for each `p` that passes the base-2 Fermat test. -/
def scanTable : Nat → Nat → List (Nat × List Nat) → Bool
  | 0, _, _ => true
  | count + 1, p, tbl =>
    if 2 ^ (p - 1) % p = 1 then
      match tbl with
      | [] => false
      | row :: rest => certRow p row.1 row.2 && scanTable count (p + 1) rest
    else scanTable count (p + 1) tbl

/-! ## Arithmetic on non-negative BigInts -/

theorem bigRem_natCast (a b : Nat) (hb : b ≠ 0) :
    bigRem (a : Int) (b : Int) = .ret ((a % b : Nat) : Int) := by
  unfold bigRem
  have : (b : Int) ≠ 0 := by exact_mod_cast hb
  rw [if_neg this]
  exact congrArg Run.ret (Int.ofNat_tmod a b).symm

theorem land_one_natCast (e : Nat) : Int.land (e : Int) 1 = ((e % 2 : Nat) : Int) := by
  have h : Int.land (e : Int) 1 = ((e &&& 1 : Nat) : Int) := rfl
  rw [h, Nat.and_one_is_mod]

theorem shiftRight_one_natCast (e : Nat) : (e : Int) >>> 1 = ((e / 2 : Nat) : Int) := by
  have h : (e : Int) >>> 1 = ((e >>> 1 : Nat) : Int) := rfl
  rw [h, Nat.shiftRight_eq_div_pow]

@[simp] theorem bind_ret {α β : Type} (a : α) (f : α → Run β) : (Run.ret a >>= f) = f a := rfl

/-! ## modPow computes the modular power -/

theorem modPowLoop_erase (mod : Int) :
    ∀ (fuel : Nat) (base exp res : Int),
      modPowLoop mod fuel base exp res =
        modPowLoopTrace mod fuel base exp res >>= fun out => .ret out.1 := by
  intro fuel
  induction fuel with
  | zero =>
    intro base exp res
    rw [modPowLoop, modPowLoopTrace]
    split <;> rfl
  | succ fuel ih =>
    intro base exp res
    rw [modPowLoop, modPowLoopTrace]
    by_cases hexp : exp > 0
    · rw [if_pos hexp, if_pos hexp]
      by_cases hm : mod = 0
      · have hr : ∀ a, bigRem a mod = .rangeError := fun a => by rw [bigRem, if_pos hm]
        simp only [hr]
        split <;> rfl
      · have hr : ∀ a, bigRem a mod = .ret (Int.tmod a mod) := fun a => by rw [bigRem, if_neg hm]
        simp only [hr, bind_ret, ih]
        split
        · simp only [bind_ret]
          cases modPowLoopTrace mod fuel ((base * base).tmod mod) (exp >>> 1)
            ((res * base).tmod mod) <;> rfl
        · simp only [bind_ret]
          cases modPowLoopTrace mod fuel ((base * base).tmod mod) (exp >>> 1) res <;> rfl
    · rw [if_neg hexp, if_neg hexp]
      rfl

/-- The result of `modPow` is that of the loop without the record. -/
theorem modPow_eq_loop (base exp mod : Int) :
    modPow base exp mod =
      bigRem base mod >>= fun base0 => modPowLoop mod exp.natAbs base0 exp 1 := by
  unfold modPow modPowTrace
  cases bigRem base mod with
  | ret b =>
    rw [bind_ret, bind_ret, modPowLoop_erase]
    cases modPowLoopTrace mod exp.natAbs b exp 1 <;> rfl
  | rangeError => rfl
  | diverge => rfl

theorem modPowLoop_natCast (m : Nat) (hm : m ≠ 0) :
    ∀ (fuel e b r : Nat), e ≤ fuel → r < m →
      modPowLoop (m : Int) fuel (b : Int) (e : Int) (r : Int) = .ret ((r * b ^ e % m : Nat) : Int) := by
  intro fuel
  induction fuel with
  | zero =>
    intro e b r he hr
    have : e = 0 := by omega
    subst this
    unfold modPowLoop
    simp [Nat.mod_eq_of_lt hr]
  | succ fuel ih =>
    intro e b r he hr
    unfold modPowLoop
    by_cases h0 : e = 0
    · subst h0
      simp [Nat.mod_eq_of_lt hr]
    · have hpos : (e : Int) > 0 := by
        have : 0 < e := Nat.pos_of_ne_zero h0
        exact_mod_cast this
      have hmpos : 0 < m := Nat.pos_of_ne_zero hm
      rw [if_pos hpos]
      simp only []
      rw [land_one_natCast, shiftRight_one_natCast]
      have hb2 : bigRem ((b : Int) * (b : Int)) (m : Int) = .ret ((b * b % m : Nat) : Int) := by
        rw [← Nat.cast_mul]; exact bigRem_natCast _ _ hm
      have hpow : b ^ e = (b * b) ^ (e / 2) * b ^ (e % 2) := by
        conv_lhs => rw [← Nat.div_add_mod e 2]
        rw [pow_add, pow_mul, pow_two]
      rcases Nat.mod_two_eq_zero_or_one e with h2 | h2
      · have hc : ¬ (((e % 2 : Nat) : Int) ≠ 0) := by simp [h2]
        rw [if_neg hc, bind_ret, hb2, bind_ret, ih (e / 2) (b * b % m) r (by omega) hr]
        congr 2
        rw [hpow, h2, pow_zero, mul_one]
        conv_lhs => rw [Nat.mul_mod, Nat.pow_mod, Nat.mod_mod, ← Nat.pow_mod, ← Nat.mul_mod]
      · have hc : (((e % 2 : Nat) : Int) ≠ 0) := by simp [h2]
        have hrb : bigRem ((r : Int) * (b : Int)) (m : Int) = .ret ((r * b % m : Nat) : Int) := by
          rw [← Nat.cast_mul]; exact bigRem_natCast _ _ hm
        rw [if_pos hc, hrb, bind_ret, hb2, bind_ret,
          ih (e / 2) (b * b % m) (r * b % m) (by omega) (Nat.mod_lt _ hmpos)]
        congr 2
        rw [hpow, h2, pow_one]
        conv_lhs => rw [Nat.mul_mod, Nat.pow_mod, Nat.mod_mod, Nat.mod_mod, ← Nat.pow_mod, ← Nat.mul_mod]
        congr 1
        ring

/-- For a modulus `m ≥ 2` and non-negative arguments, `modPow` returns `b ^ e mod m`. -/
theorem modPow_natCast (b e m : Nat) (hm : 2 ≤ m) :
    modPow (b : Int) (e : Int) (m : Int) = .ret ((b ^ e % m : Nat) : Int) := by
  rw [modPow_eq_loop, bigRem_natCast b m (by omega), bind_ret, Int.natAbs_ofNat,
    show (1 : Int) = ((1 : Nat) : Int) from rfl,
    modPowLoop_natCast m (by omega) e e (b % m) 1 (le_refl _) (by omega)]
  congr 2
  rw [one_mul, Nat.pow_mod, Nat.mod_mod, ← Nat.pow_mod]

/-! ## The loops of isProbablePrime -/

theorem stripTwos_natCast :
    ∀ (fuel d : Nat) (s : Int), 0 < d → d ≤ fuel →
      ∃ d1 k : Nat, stripTwos fuel (d : Int) s = .ret ((d1 : Int), s + (k : Int)) ∧
        d1 % 2 = 1 ∧ d = d1 * 2 ^ k := by
  intro fuel
  induction fuel with
  | zero => intro d s hd hle; omega
  | succ fuel ih =>
    intro d s hd hle
    unfold stripTwos
    rw [land_one_natCast]
    rcases Nat.mod_two_eq_zero_or_one d with h2 | h2
    · have hc : (((d % 2 : Nat) : Int) = 0) := by simp [h2]
      rw [if_pos hc]
      simp only []
      rw [shiftRight_one_natCast]
      obtain ⟨d1, k, hrun, hodd, hd1⟩ := ih (d / 2) (s + 1) (by omega) (by omega)
      refine ⟨d1, k + 1, ?_, hodd, ?_⟩
      · rw [hrun]
        congr 2
        push_cast
        ring
      · have : d = 2 * (d / 2) := by omega
        rw [this, hd1]
        ring
    · have hc : ¬ (((d % 2 : Nat) : Int) = 0) := by simp [h2]
      rw [if_neg hc]
      exact ⟨d, 0, by simp, h2, by simp⟩

theorem squareLoop_natCast (n : Nat) (hn : 2 ≤ n) :
    ∀ (count x : Nat), ∃ b, squareLoop (n : Int) count (x : Int) = .ret b ∧
      (b = true ↔ ∃ j, 1 ≤ j ∧ j ≤ count ∧ x ^ 2 ^ j % n = n - 1) := by
  intro count
  induction count with
  | zero =>
    intro x
    refine ⟨false, rfl, ?_⟩
    constructor
    · intro h; cases h
    · rintro ⟨j, h1, h2, _⟩; omega
  | succ count ih =>
    intro x
    unfold squareLoop
    have hxx : bigRem ((x : Int) * (x : Int)) (n : Int) = .ret ((x * x % n : Nat) : Int) := by
      rw [← Nat.cast_mul]; exact bigRem_natCast _ _ (by omega)
    rw [hxx, bind_ret]
    have hsq : ∀ j, (x * x % n) ^ 2 ^ j % n = x ^ 2 ^ (j + 1) % n := by
      intro j
      rw [← Nat.pow_mod, pow_succ', pow_mul, pow_two]
    by_cases h1 : x * x % n = n - 1
    · have hc : (((x * x % n : Nat) : Int) = (n : Int) - 1) := by
        rw [h1]; push_cast [Nat.cast_sub (by omega : 1 ≤ n)]; ring
      rw [if_pos hc]
      refine ⟨true, rfl, ?_⟩
      simp only [true_iff]
      exact ⟨1, le_refl _, by omega, by simpa [pow_two] using h1⟩
    · have hc : ¬ (((x * x % n : Nat) : Int) = (n : Int) - 1) := by
        intro h
        apply h1
        have : ((x * x % n : Nat) : Int) = ((n - 1 : Nat) : Int) := by
          rw [h]; push_cast [Nat.cast_sub (by omega : 1 ≤ n)]; ring
        exact_mod_cast this
      rw [if_neg hc]
      obtain ⟨b, hb, hiff⟩ := ih (x * x % n)
      refine ⟨b, hb, ?_⟩
      rw [hiff]
      constructor
      · rintro ⟨j, hj1, hj2, hj⟩
        exact ⟨j + 1, by omega, by omega, by rw [← hsq]; exact hj⟩
      · rintro ⟨j, hj1, hj2, hj⟩
        rcases Nat.lt_or_ge j 2 with hlt | hge
        · have : j = 1 := by omega
          subst this
          exfalso; apply h1
          simpa [pow_two] using hj
        · refine ⟨j - 1, by omega, by omega, ?_⟩
          rw [hsq, Nat.sub_add_cancel (by omega)]
          exact hj

theorem tryBase_natCast (n d s a : Nat) (hn : 2 ≤ n) (hs : 1 ≤ s) :
    ∃ b, tryBase (n : Int) (d : Int) (s : Int) (a : Int) = .ret b ∧
      (b = true ↔ (a % n = 0 ∨ StrongProbablePrime n d s a)) := by
  unfold tryBase
  rw [bigRem_natCast a n (by omega), bind_ret]
  by_cases ha : a % n = 0
  · refine ⟨true, ?_, by simp [ha]⟩
    simp [ha]
  · have hc : ¬ (((a % n : Nat) : Int) = 0) := by exact_mod_cast ha
    rw [if_neg hc, modPow_natCast a d n hn, bind_ret]
    have hcast1 : (((a ^ d % n : Nat) : Int) = 1) ↔ a ^ d % n = 1 := by
      constructor
      · intro h; exact_mod_cast h
      · intro h; rw [h]; rfl
    have hcastn : (((a ^ d % n : Nat) : Int) = (n : Int) - 1) ↔ a ^ d % n = n - 1 := by
      constructor
      · intro h
        have : ((a ^ d % n : Nat) : Int) = ((n - 1 : Nat) : Int) := by
          rw [h]; push_cast [Nat.cast_sub (by omega : 1 ≤ n)]; ring
        exact_mod_cast this
      · intro h; rw [h]; push_cast [Nat.cast_sub (by omega : 1 ≤ n)]; ring
    have hpows : ∀ j, (a ^ d % n) ^ 2 ^ j % n = a ^ (d * 2 ^ j) % n := by
      intro j; rw [← Nat.pow_mod, pow_mul]
    by_cases h1 : a ^ d % n = 1 ∨ a ^ d % n = n - 1
    · have hc2 : ((a ^ d % n : Nat) : Int) = 1 ∨ ((a ^ d % n : Nat) : Int) = (n : Int) - 1 := by
        rcases h1 with h | h
        · exact Or.inl (hcast1.2 h)
        · exact Or.inr (hcastn.2 h)
      rw [if_pos hc2]
      refine ⟨true, rfl, ?_⟩
      simp only [true_iff]
      right
      rcases h1 with h | h
      · exact Or.inl h
      · exact Or.inr ⟨0, by omega, by simpa using h⟩
    · have hc2 : ¬ (((a ^ d % n : Nat) : Int) = 1 ∨ ((a ^ d % n : Nat) : Int) = (n : Int) - 1) := by
        rw [hcast1, hcastn]; exact h1
      rw [if_neg hc2]
      have hsn : ((s : Int) - 1).toNat = s - 1 := by omega
      rw [hsn]
      obtain ⟨b, hb, hiff⟩ := squareLoop_natCast n hn (s - 1) (a ^ d % n)
      refine ⟨b, hb, ?_⟩
      rw [hiff]
      constructor
      · rintro ⟨j, hj1, hj2, hj⟩
        right; right
        exact ⟨j, by omega, by rw [← hpows]; exact hj⟩
      · rintro (h | h | ⟨j, hj1, hj⟩)
        · exact absurd h ha
        · exact absurd (Or.inl h) h1
        · rcases Nat.eq_zero_or_pos j with h0 | hpos
          · subst h0
            exfalso; apply h1; right; simpa using hj
          · exact ⟨j, hpos, by omega, by rw [hpows]; exact hj⟩

theorem basesLoop_natCast (n d s : Nat) (hn : 2 ≤ n) (hs : 1 ≤ s) :
    ∀ bases : List Nat, ∃ b,
      basesLoop (n : Int) (d : Int) (s : Int) (List.map (fun a : Nat => (a : Int)) bases) = .ret b ∧
      (b = true ↔ ∀ a ∈ bases, a % n = 0 ∨ StrongProbablePrime n d s a) := by
  intro bases
  induction bases with
  | nil => exact ⟨true, rfl, by simp⟩
  | cons a rest ih =>
    obtain ⟨b1, hb1, hiff1⟩ := tryBase_natCast n d s a hn hs
    obtain ⟨b2, hb2, hiff2⟩ := ih
    rw [List.map_cons, basesLoop, hb1, bind_ret]
    cases b1 with
    | false =>
      refine ⟨false, by simp, ?_⟩
      simp only [List.mem_cons, forall_eq_or_imp]
      constructor
      · intro h; cases h
      · rintro ⟨h, _⟩
        exact absurd (hiff1.2 h) (by simp)
    | true =>
      refine ⟨b2, by simpa using hb2, ?_⟩
      simp only [List.mem_cons, forall_eq_or_imp]
      rw [hiff2]
      constructor
      · intro h; exact ⟨hiff1.1 rfl, h⟩
      · rintro ⟨_, h⟩; exact h

theorem SMALL_PRIMES_eq : SMALL_PRIMES = List.map (fun a : Nat => (a : Int)) smallPrimesNat := by
  decide

theorem MR_BASES_64_eq : MR_BASES_64 = List.map (fun a : Nat => (a : Int)) mrBasesNat := by
  decide

theorem smallPrimeLoop_natCast (n : Nat) :
    ∀ ps : List Nat, (∀ p ∈ ps, p ≠ 0) → ∃ r,
      smallPrimeLoop (n : Int) (List.map (fun a : Nat => (a : Int)) ps) = .ret r ∧
      (r = none ↔ ∀ p ∈ ps, n % p ≠ 0) ∧ (r = some true → n ∈ ps) := by
  intro ps
  induction ps with
  | nil => intro _; exact ⟨none, rfl, by simp, by simp⟩
  | cons p rest ih =>
    intro hne
    have hp : p ≠ 0 := hne p (List.mem_cons_self _ _)
    obtain ⟨r, hr, hnone, htrue⟩ := ih (fun q hq => hne q (List.mem_cons_of_mem _ hq))
    rw [List.map_cons, smallPrimeLoop]
    by_cases hnp : n = p
    · have hc : (n : Int) = (p : Int) := by exact_mod_cast hnp
      rw [if_pos hc]
      refine ⟨some true, rfl, ?_, ?_⟩
      · simp only [List.mem_cons, forall_eq_or_imp]
        constructor
        · intro h; cases h
        · rintro ⟨h, _⟩; exfalso; apply h; rw [hnp]; exact Nat.mod_self p
      · intro _; rw [hnp]; exact List.mem_cons_self _ _
    · have hc : ¬ ((n : Int) = (p : Int)) := by exact_mod_cast hnp
      rw [if_neg hc, bigRem_natCast n p hp, bind_ret]
      by_cases hmod : n % p = 0
      · have hc2 : ((n % p : Nat) : Int) = 0 := by exact_mod_cast hmod
        rw [if_pos hc2]
        refine ⟨some false, by simp [hc], ?_, by simp⟩
        simp only [List.mem_cons, forall_eq_or_imp]
        constructor
        · intro h; cases h
        · rintro ⟨h, _⟩; exact absurd hmod h
      · have hc2 : ¬ (((n % p : Nat) : Int) = 0) := by exact_mod_cast hmod
        rw [if_neg hc2]
        refine ⟨r, hr, ?_, ?_⟩
        · rw [hnone]
          simp only [List.mem_cons, forall_eq_or_imp]
          constructor
          · intro h; exact ⟨hmod, h⟩
          · rintro ⟨_, h⟩; exact h
        · intro h; exact List.mem_cons_of_mem _ (htrue h)

theorem smallPrimesNat_ne_zero : ∀ p ∈ smallPrimesNat, p ≠ 0 := by decide

/-! ## Characterisation of isProbablePrime on natural numbers -/

theorem isProbablePrime_lt_two (n : Int) (h : n < 2) : isProbablePrime n = .ret false := by
  unfold isProbablePrime
  rw [if_pos h]

theorem isProbablePrime_smallPrime : ∀ p ∈ smallPrimesNat, isProbablePrime (p : Int) = .ret true := by
  decide

theorem isProbablePrime_of_small_dvd (n : Nat) (hn : 2 ≤ n) (hmem : n ∉ smallPrimesNat)
    (hdvd : ∃ p ∈ smallPrimesNat, n % p = 0) : isProbablePrime (n : Int) = .ret false := by
  unfold isProbablePrime
  have hc : ¬ ((n : Int) < 2) := by omega
  rw [if_neg hc, SMALL_PRIMES_eq]
  obtain ⟨r, hr, hnone, htrue⟩ := smallPrimeLoop_natCast n smallPrimesNat smallPrimesNat_ne_zero
  rw [hr, bind_ret]
  match r, hnone, htrue with
  | none, hnone, _ =>
    obtain ⟨p, hp, hmod⟩ := hdvd
    exact absurd hmod (hnone.1 rfl p hp)
  | some true, _, htrue => exact absurd (htrue rfl) hmem
  | some false, _, _ => rfl

/-- Numbers `≥ 2` without a divisor in `SMALL_PRIMES` reach the Miller–Rabin
stage, whose verdict is the strong probable prime condition for every base. -/
theorem isProbablePrime_rough (n : Nat) (hn : 2 ≤ n) (hrough : ∀ p ∈ smallPrimesNat, n % p ≠ 0) :
    ∃ d s : Nat, n - 1 = d * 2 ^ s ∧ d % 2 = 1 ∧ 1 ≤ s ∧ ∃ b,
      isProbablePrime (n : Int) = .ret b ∧
      (b = true ↔ ∀ a ∈ mrBasesNat, StrongProbablePrime n d s a) := by
  have hodd : n % 2 ≠ 0 := hrough 2 (by decide)
  have hbig : 17 < n := by
    by_contra hle
    have hle : n ≤ 17 := by omega
    interval_cases n <;> revert hrough <;> decide
  unfold isProbablePrime
  have hc : ¬ ((n : Int) < 2) := by omega
  rw [if_neg hc, SMALL_PRIMES_eq]
  obtain ⟨r, hr, hnone, _⟩ := smallPrimeLoop_natCast n smallPrimesNat smallPrimesNat_ne_zero
  have hrn : r = none := hnone.2 hrough
  subst hrn
  rw [hr, bind_ret]
  simp only []
  have hcast : (n : Int) - 1 = ((n - 1 : Nat) : Int) := by
    push_cast [Nat.cast_sub (by omega : 1 ≤ n)]; ring
  rw [hcast, Int.natAbs_ofNat]
  obtain ⟨d, s, hrun, hd, hds⟩ := stripTwos_natCast (n - 1) (n - 1) 0 (by omega) (le_refl _)
  rw [hrun, bind_ret]
  simp only [zero_add]
  have hs : 1 ≤ s := by
    rcases Nat.eq_zero_or_pos s with h0 | hpos
    · subst h0
      rw [pow_zero, mul_one] at hds
      omega
    · exact hpos
  obtain ⟨b, hb, hiff⟩ := basesLoop_natCast n d s hn hs mrBasesNat
  refine ⟨d, s, hds, hd, hs, b, ?_, ?_⟩
  · rw [MR_BASES_64_eq]; exact hb
  · rw [hiff]
    constructor
    · intro h a ha
      rcases h a ha with h0 | h1
      · exfalso
        have hbound : ∀ c ∈ mrBasesNat, 0 < c ∧ c ≤ 17 := by decide
        obtain ⟨hpos, hle⟩ := hbound a ha
        have := Nat.le_of_dvd hpos (Nat.dvd_of_mod_eq_zero h0)
        omega
      · exact h1
    · intro h a ha; exact Or.inr (h a ha)

/-! ## Number theory of the strong probable prime condition -/

theorem natCast_zmod_eq_one_iff (n x : Nat) (hn : 2 ≤ n) : ((x : ZMod n) = 1) ↔ x % n = 1 := by
  have h := ZMod.natCast_eq_natCast_iff' x 1 n
  rw [Nat.cast_one, Nat.mod_eq_of_lt (by omega : 1 < n)] at h
  exact h

theorem natCast_zmod_eq_neg_one_iff (n x : Nat) (hn : 2 ≤ n) :
    ((x : ZMod n) = -1) ↔ x % n = n - 1 := by
  have h := ZMod.natCast_eq_natCast_iff' x (n - 1) n
  rw [Nat.cast_sub (by omega : 1 ≤ n), ZMod.natCast_self, Nat.cast_one, zero_sub,
    Nat.mod_eq_of_lt (by omega : n - 1 < n)] at h
  exact h

theorem sq_chain {R : Type} [CommRing R] [NoZeroDivisors R] (y : R) :
    ∀ s : Nat, y ^ 2 ^ s = 1 → y = 1 ∨ ∃ j, j < s ∧ y ^ 2 ^ j = -1 := by
  intro s
  induction s with
  | zero => intro h; left; simpa using h
  | succ s ih =>
    intro h
    have h2 : y ^ 2 ^ s * y ^ 2 ^ s = 1 := by
      rw [← pow_add, ← two_mul, ← pow_succ']; exact h
    rcases mul_self_eq_one_iff.1 h2 with h1 | h1
    · rcases ih h1 with h0 | ⟨j, hj, hjm⟩
      · exact Or.inl h0
      · exact Or.inr ⟨j, by omega, hjm⟩
    · exact Or.inr ⟨s, by omega, h1⟩

/-- Every prime is a strong probable prime to every base it does not divide. -/
theorem StrongProbablePrime_of_prime (n d s a : Nat) (hp : n.Prime) (hds : n - 1 = d * 2 ^ s)
    (ha : ¬ n ∣ a) : StrongProbablePrime n d s a := by
  haveI : Fact n.Prime := ⟨hp⟩
  have hn : 2 ≤ n := hp.two_le
  have ha0 : (a : ZMod n) ≠ 0 := by
    rw [Ne, ZMod.natCast_zmod_eq_zero_iff_dvd]; exact ha
  have hfermat : ((a : ZMod n) ^ d) ^ 2 ^ s = 1 := by
    rw [← pow_mul, ← hds]; exact ZMod.pow_card_sub_one_eq_one ha0
  rcases sq_chain ((a : ZMod n) ^ d) s hfermat with h1 | ⟨j, hj, hjm⟩
  · left
    rw [← natCast_zmod_eq_one_iff n _ hn]
    push_cast; exact h1
  · right
    refine ⟨j, hj, ?_⟩
    rw [← natCast_zmod_eq_neg_one_iff n _ hn]
    push_cast; rw [pow_mul]; exact hjm

/-- A strong probable prime to base `a` is a Fermat probable prime to base `a`. -/
theorem StrongProbablePrime.fermat (n d s a : Nat) (hn : 2 ≤ n) (hds : n - 1 = d * 2 ^ s)
    (h : StrongProbablePrime n d s a) : a ^ (n - 1) % n = 1 := by
  rw [← natCast_zmod_eq_one_iff n _ hn, hds]
  push_cast
  rcases h with h1 | ⟨j, hj, hjm⟩
  · have : ((a : ZMod n) ^ d) = 1 := by
      have := (natCast_zmod_eq_one_iff n _ hn).2 h1
      push_cast at this; exact this
    rw [pow_mul, this, one_pow]
  · have hm : ((a : ZMod n) ^ (d * 2 ^ j)) = -1 := by
      have := (natCast_zmod_eq_neg_one_iff n _ hn).2 hjm
      push_cast at this; exact this
    have hsplit : d * 2 ^ s = d * 2 ^ j * (2 * 2 ^ (s - j - 1)) := by
      have : 2 ^ s = 2 ^ j * (2 * 2 ^ (s - j - 1)) := by
        rw [← pow_succ', ← pow_add]; congr 1; omega
      rw [this]; ring
    rw [hsplit, pow_mul, hm, pow_mul]
    simp

/-! ## Totality and the verdict on primes -/

theorem smallPrimesNat_two_le : ∀ p ∈ smallPrimesNat, 2 ≤ p := by decide

theorem rough_of_prime (n : Nat) (hp : n.Prime) (hmem : n ∉ smallPrimesNat) :
    ∀ p ∈ smallPrimesNat, n % p ≠ 0 := by
  intro p hpm hmod
  have hdvd : p ∣ n := Nat.dvd_of_mod_eq_zero hmod
  rcases (Nat.dvd_prime hp).1 hdvd with h1 | h1
  · have := smallPrimesNat_two_le p hpm; omega
  · exact hmem (h1 ▸ hpm)

theorem rough_gt (n : Nat) (hn : 2 ≤ n) (hrough : ∀ p ∈ smallPrimesNat, n % p ≠ 0) : 17 < n := by
  by_contra hle
  have hle : n ≤ 17 := by omega
  interval_cases n <;> revert hrough <;> decide

/-- The oracle returns a boolean for every non-negative argument. -/
theorem isProbablePrime_total_nat (n : Nat) : ∃ b, isProbablePrime (n : Int) = .ret b := by
  by_cases hn : n < 2
  · exact ⟨false, isProbablePrime_lt_two _ (by omega)⟩
  · by_cases hmem : n ∈ smallPrimesNat
    · exact ⟨true, isProbablePrime_smallPrime n hmem⟩
    · by_cases hr : ∀ p ∈ smallPrimesNat, n % p ≠ 0
      · obtain ⟨_, _, _, _, _, b, hb, _⟩ := isProbablePrime_rough n (by omega) hr
        exact ⟨b, hb⟩
      · push_neg at hr
        exact ⟨false, isProbablePrime_of_small_dvd n (by omega) hmem hr⟩

/-- The oracle returns a boolean for every BigInt argument. -/
theorem isProbablePrime_total (n : Int) : ∃ b, isProbablePrime n = .ret b := by
  rcases lt_or_le n 0 with h | h
  · exact ⟨false, isProbablePrime_lt_two _ (by omega)⟩
  · obtain ⟨k, rfl⟩ := Int.eq_ofNat_of_zero_le h
    exact isProbablePrime_total_nat k

/-- Every prime is accepted. -/
theorem isProbablePrime_of_prime (n : Nat) (hp : n.Prime) : isProbablePrime (n : Int) = .ret true := by
  by_cases hmem : n ∈ smallPrimesNat
  · exact isProbablePrime_smallPrime n hmem
  · have hr := rough_of_prime n hp hmem
    have hbig := rough_gt n hp.two_le hr
    obtain ⟨d, s, hds, _, _, b, hb, hiff⟩ := isProbablePrime_rough n hp.two_le hr
    have hbt : b = true := by
      rw [hiff]
      intro a ha
      apply StrongProbablePrime_of_prime n d s a hp hds
      intro hdvd
      have hbound : ∀ c ∈ mrBasesNat, 0 < c ∧ c ≤ 17 := by decide
      obtain ⟨hpos, hle⟩ := hbound a ha
      have := Nat.le_of_dvd hpos hdvd
      omega
    rw [hb, hbt]

/-- Accepted numbers without a small prime divisor are Fermat probable primes to base 2. -/
theorem fermat_two_of_accepted (n : Nat) (hn : 2 ≤ n) (hrough : ∀ p ∈ smallPrimesNat, n % p ≠ 0)
    (hacc : isProbablePrime (n : Int) = .ret true) : 2 ^ (n - 1) % n = 1 := by
  obtain ⟨d, s, hds, _, _, b, hb, hiff⟩ := isProbablePrime_rough n hn hrough
  rw [hb] at hacc
  have hbt : b = true := by injection hacc
  exact StrongProbablePrime.fermat n d s 2 hn hds (hiff.1 hbt 2 (by decide))

/-! ## The naive reference test decides primality -/

theorem naiveLoop_iff (n : Nat) :
    ∀ fuel k : Nat, n < fuel + k → 1 ≤ k →
      (naiveLoop n fuel k = true ↔ ∀ j, k ≤ j → j * j ≤ n → n % j ≠ 0) := by
  intro fuel
  induction fuel with
  | zero =>
    intro k hk _
    simp only [naiveLoop, true_iff]
    intro j hj hjj
    have : j ≤ j * j := Nat.le_mul_self j
    omega
  | succ fuel ih =>
    intro k hk h1
    unfold naiveLoop
    by_cases hsq : n < k * k
    · rw [if_pos hsq]
      simp only [true_iff]
      intro j hj hjj
      have : k * k ≤ j * j := Nat.mul_le_mul hj hj
      omega
    · rw [if_neg hsq]
      by_cases hmod : n % k = 0
      · rw [if_pos hmod]
        constructor
        · intro h; cases h
        · intro h; exact absurd hmod (h k (le_refl _) (by omega))
      · rw [if_neg hmod, ih (k + 1) (by omega) (by omega)]
        constructor
        · intro h j hj hjj
          rcases Nat.eq_or_lt_of_le hj with heq | hlt
          · rw [← heq]; exact hmod
          · exact h j hlt hjj
        · intro h j hj hjj
          exact h j (by omega) hjj

theorem naiveIsPrime_iff (n : Nat) : naiveIsPrime n = true ↔ n.Prime := by
  unfold naiveIsPrime
  rw [Bool.and_eq_true, decide_eq_true_iff, naiveLoop_iff n n 2 (by omega) (by omega),
    Nat.prime_def_le_sqrt]
  constructor
  · rintro ⟨h2, h⟩
    refine ⟨h2, fun m hm hsq hdvd => ?_⟩
    exact h m hm (Nat.le_sqrt.1 hsq) (Nat.mod_eq_zero_of_dvd hdvd)
  · rintro ⟨h2, h⟩
    refine ⟨h2, fun j hj hjj hmod => ?_⟩
    exact h j hj (Nat.le_sqrt.2 hjj) (Nat.dvd_of_mod_eq_zero hmod)

/-! ## Soundness of the certificate below one million -/

set_option maxRecDepth 1000000 in
theorem scanTable_orderTable : scanTable 900 101 orderTable = true := by
  decide!

theorem candLoop_sound (p k : Nat) :
    ∀ count, candLoop p k count = true → ∀ i, i < count → p ≤ 1 + k * i →
      p * (1 + k * i) ≤ 10 ^ 6 → 2 ^ (p * (1 + k * i) - 1) % (p * (1 + k * i)) = 1 →
      isProbablePrime ((p * (1 + k * i) : Nat) : Int) = .ret false := by
  intro count
  induction count with
  | zero => intro _ i hi; omega
  | succ c ih =>
    intro h i hi hpm hle hfer
    unfold candLoop at h
    rw [Bool.and_eq_true] at h
    obtain ⟨hhead, htail⟩ := h
    rcases Nat.eq_or_lt_of_le (Nat.lt_succ_iff.1 hi) with heq | hlt
    · subst heq
      simp only [Bool.or_eq_true, decide_eq_true_iff] at hhead
      rcases hhead with ((h1 | h1) | h1) | h1
      · omega
      · omega
      · exact absurd hfer h1
      · exact h1
    · exact ih htail i hlt hpm hle hfer

theorem scanTable_sound :
    ∀ (count p0 : Nat) (tbl : List (Nat × List Nat)), scanTable count p0 tbl = true →
      ∀ p, p0 ≤ p → p < p0 + count → 2 ^ (p - 1) % p = 1 → ∃ k rs, certRow p k rs = true := by
  intro count
  induction count with
  | zero => intro p0 tbl _ p h1 h2; omega
  | succ c ih =>
    intro p0 tbl h p h1 h2 hfer
    unfold scanTable at h
    by_cases hf0 : 2 ^ (p0 - 1) % p0 = 1
    · rw [if_pos hf0] at h
      match tbl, h with
      | [], h => cases h
      | row :: rest, h =>
        simp only [Bool.and_eq_true] at h
        rcases Nat.eq_or_lt_of_le h1 with heq | hlt
        · subst heq; exact ⟨row.1, row.2, h.1⟩
        · exact ih (p0 + 1) rest h.2 p hlt (by omega) hfer
    · rw [if_neg hf0] at h
      rcases Nat.eq_or_lt_of_le h1 with heq | hlt
      · subst heq; exact absurd hfer hf0
      · exact ih (p0 + 1) tbl h p hlt (by omega) hfer

theorem fermat_prime (p : Nat) (hp : p.Prime) (hp2 : p ≠ 2) : 2 ^ (p - 1) % p = 1 := by
  haveI : Fact p.Prime := ⟨hp⟩
  rw [← natCast_zmod_eq_one_iff p _ hp.two_le]
  push_cast
  apply ZMod.pow_card_sub_one_eq_one
  intro h0
  have h2 : ((2 : Nat) : ZMod p) = 0 := by exact_mod_cast h0
  rw [ZMod.natCast_zmod_eq_zero_iff_dvd] at h2
  rcases (Nat.dvd_prime Nat.prime_two).1 h2 with h | h
  · exact hp.one_lt.ne' h
  · exact hp2 h

theorem fermat_cofactor (p m : Nat) (hp : p.Prime) (hp2 : p ≠ 2) (hm : 1 ≤ m)
    (h : 2 ^ (p * m - 1) % (p * m) = 1) : 2 ^ (m - 1) % p = 1 := by
  haveI : Fact p.Prime := ⟨hp⟩
  have hpm : 2 ≤ p * m := le_trans hp.two_le (Nat.le_mul_of_pos_right p hm)
  have hmod : 2 ^ (p * m - 1) ≡ 1 [MOD p * m] := by
    unfold Nat.ModEq
    rw [h, Nat.mod_eq_of_lt (by omega : 1 < p * m)]
  have hmodp : 2 ^ (p * m - 1) ≡ 1 [MOD p] := Nat.ModEq.of_dvd (Dvd.intro m rfl) hmod
  have hz : ((2 : ZMod p)) ^ (p * m - 1) = 1 := by
    have := (ZMod.natCast_eq_natCast_iff _ _ _).2 hmodp
    push_cast at this; exact this
  have hfer : ((2 : ZMod p)) ^ (p - 1) = 1 := by
    have := (natCast_zmod_eq_one_iff p _ hp.two_le).2 (fermat_prime p hp hp2)
    push_cast at this; exact this
  have hsplit : p * m - 1 = (p - 1) * m + (m - 1) := by
    have hp1 : 1 ≤ p := hp.one_lt.le
    obtain ⟨p', rfl⟩ : ∃ p', p = p' + 1 := ⟨p - 1, by omega⟩
    obtain ⟨m', rfl⟩ : ∃ m', m = m' + 1 := ⟨m - 1, by omega⟩
    simp only [Nat.add_sub_cancel]
    have : (p' + 1) * (m' + 1) = p' * (m' + 1) + m' + 1 := by ring
    omega
  rw [hsplit, pow_add, pow_mul, hfer, one_pow, one_mul] at hz
  rw [← natCast_zmod_eq_one_iff p _ hp.two_le]
  push_cast; exact hz

theorem certRow_sound (p k : Nat) (rs : List Nat) (h : certRow p k rs = true) (hp : p.Prime)
    (m : Nat) (hpm : p ≤ m) (hle : p * m ≤ 10 ^ 6) (hcof : 2 ^ (m - 1) % p = 1)
    (hfer : 2 ^ (p * m - 1) % (p * m) = 1) :
    isProbablePrime ((p * m : Nat) : Int) = .ret false := by
  haveI : Fact p.Prime := ⟨hp⟩
  unfold certRow at h
  simp only [Bool.and_eq_true, decide_eq_true_iff, List.all_eq_true] at h
  obtain ⟨⟨⟨⟨hk, hone⟩, hprod⟩, hrs⟩, hcand⟩ := h
  have hzk : ((2 : ZMod p)) ^ k = 1 := by
    have := (natCast_zmod_eq_one_iff p _ hp.two_le).2 hone
    push_cast at this; exact this
  have hord : orderOf (2 : ZMod p) = k := by
    apply orderOf_eq_of_pow_and_pow_div_prime hk hzk
    intro q hq hqk hpow
    have hqprod : q ∣ rs.prod := by
      apply Nat.Prime.dvd_of_dvd_pow hq (n := 10)
      exact dvd_trans hqk (Nat.dvd_of_mod_eq_zero hprod)
    obtain ⟨r, hr, hqr⟩ := (Prime.dvd_prod_iff (Nat.prime_iff.1 hq)).1 hqprod
    obtain ⟨hrp, hrne⟩ := hrs r hr
    have hrprime : r.Prime := (naiveIsPrime_iff r).1 hrp
    have hqeq : q = r := (Nat.prime_dvd_prime_iff_eq hq hrprime).1 hqr
    subst hqeq
    apply hrne
    rw [← natCast_zmod_eq_one_iff p _ hp.two_le]
    push_cast; exact hpow
  have hzm : ((2 : ZMod p)) ^ (m - 1) = 1 := by
    have := (natCast_zmod_eq_one_iff p _ hp.two_le).2 hcof
    push_cast at this; exact this
  have hdvd : k ∣ m - 1 := hord ▸ orderOf_dvd_of_pow_eq_one hzm
  obtain ⟨i, hi⟩ := hdvd
  have hm1 : 1 ≤ m := le_trans hp.one_lt.le hpm
  have hmi : m = 1 + k * i := by omega
  have hmle : m ≤ 10 ^ 6 / p := (Nat.le_div_iff_mul_le hp.pos).2 (by rw [mul_comm]; exact hle)
  have hile : i ≤ 10 ^ 6 / p / k := (Nat.le_div_iff_mul_le hk).2 (by rw [mul_comm]; omega)
  have := candLoop_sound p k _ hcand i (by omega) (by omega) (by rw [← hmi]; exact hle)
    (by rw [← hmi]; exact hfer)
  rw [← hmi] at this
  exact this

theorem smallPrimesNat_prime : ∀ p ∈ smallPrimesNat, p.Prime := by
  intro p hp
  simp only [smallPrimesNat, List.mem_cons, List.mem_singleton, List.not_mem_nil, or_false] at hp
  rcases hp with h | h | h | h | h | h | h | h | h | h | h | h | h | h | h | h | h | h | h | h |
    h | h | h | h | h <;> subst h <;> norm_num

theorem prime_lt_mem_smallPrimesNat (p : Nat) (hp : p.Prime) (hlt : p < 101) :
    p ∈ smallPrimesNat := by
  have h := (naiveIsPrime_iff p).2 hp
  revert h
  interval_cases p <;> decide

/-- Below one million the oracle accepts primes only. -/
theorem prime_of_accepted (n : Nat) (hn : n ≤ 10 ^ 6)
    (hacc : isProbablePrime (n : Int) = .ret true) : n.Prime := by
  by_contra hnp
  have h2 : 2 ≤ n := by
    by_contra hlt
    rw [isProbablePrime_lt_two _ (by omega)] at hacc
    cases hacc
  have hmem : n ∉ smallPrimesNat := fun h => hnp (smallPrimesNat_prime n h)
  have hrough : ∀ p ∈ smallPrimesNat, n % p ≠ 0 := by
    by_contra hex
    push_neg at hex
    rw [isProbablePrime_of_small_dvd n h2 hmem hex] at hacc
    cases hacc
  have hfer := fermat_two_of_accepted n h2 hrough hacc
  have hpp : (n.minFac).Prime := Nat.minFac_prime (by omega)
  have hpdvd : n.minFac ∣ n := Nat.minFac_dvd n
  have hp101 : 101 ≤ n.minFac := by
    by_contra hlt
    have := prime_lt_mem_smallPrimesNat _ hpp (by omega)
    exact hrough _ this (Nat.mod_eq_zero_of_dvd hpdvd)
  have hsq : n.minFac ^ 2 ≤ n := Nat.minFac_sq_le_self (by omega) hnp
  have hp1000 : n.minFac ≤ 1000 := by
    by_contra hgt
    have : 1001 ^ 2 ≤ n.minFac ^ 2 := Nat.pow_le_pow_left (by omega) 2
    have h6 : (10 : Nat) ^ 6 < 1001 ^ 2 := by norm_num
    omega
  obtain ⟨m, hm⟩ := hpdvd
  have hm2 : 2 ≤ m := by
    rcases Nat.lt_or_ge m 2 with hlt | hge
    · exfalso
      interval_cases m
      · omega
      · rw [mul_one] at hm
        exact hnp (hm ▸ hpp)
    · exact hge
  have hpm : n.minFac ≤ m := Nat.minFac_le_of_dvd hm2 (Dvd.intro_left _ hm.symm)
  obtain ⟨k, rs, hrow⟩ := scanTable_sound 900 101 orderTable scanTable_orderTable n.minFac hp101
    (by omega) (fermat_prime _ hpp (by omega))
  have hcof := fermat_cofactor n.minFac m hpp (by omega) (by omega) (by rw [← hm]; exact hfer)
  have hrej := certRow_sound n.minFac k rs hrow hpp m hpm (by rw [← hm]; exact hn) hcof
    (by rw [← hm]; exact hfer)
  rw [← hm, hacc] at hrej
  cases hrej

/-- Below one million the oracle decides primality. -/
theorem isProbablePrime_eq_decide (n : Nat) (hn : n ≤ 10 ^ 6) :
    isProbablePrime (n : Int) = .ret (decide n.Prime) := by
  by_cases hp : n.Prime
  · rw [isProbablePrime_of_prime n hp]; simp [hp]
  · obtain ⟨b, hb⟩ := isProbablePrime_total_nat n
    cases b with
    | true => exact absurd (prime_of_accepted n hn hb) hp
    | false => rw [hb]; simp [hp]

/-! ## The search loop -/

theorem pairTest_spec (oracle : Int → Run Bool) (htot : ∀ m, ∃ b, oracle m = .ret b) (x t : Int) :
    ∃ b, pairTest oracle (x - t) (x + t) = .ret b ∧ (b = true ↔ Passes oracle x t) := by
  unfold pairTest Passes
  by_cases hp : x - t > 1
  · rw [if_pos hp]
    obtain ⟨b1, hb1⟩ := htot (x - t)
    obtain ⟨b2, hb2⟩ := htot (x + t)
    rw [hb1, bind_ret]
    cases b1 with
    | false =>
      refine ⟨false, by simp, ?_⟩
      constructor
      · intro h; cases h
      · rintro ⟨_, h, _⟩; cases h
    | true =>
      refine ⟨b2, by simpa using hb2, ?_⟩
      rw [hb2]
      constructor
      · intro h; exact ⟨hp, rfl, by rw [h]⟩
      · rintro ⟨_, _, h⟩; injection h
  · rw [if_neg hp]
    refine ⟨false, rfl, ?_⟩
    constructor
    · intro h; cases h
    · rintro ⟨h, _⟩; exact absurd h hp

/-- The loop returns the first displacement `t + 2 * k` at which it stops, or
the step-limit failure when it stops at none of the displacements it may visit. -/
theorem searchLoop_spec (oracle : Int → Run Bool) (htot : ∀ m, ∃ b, oracle m = .ret b)
    (x xMod3 : Int) :
    ∀ (fuel : Nat) (t : Int) (steps : Nat), steps ≤ MAX_STEPS → MAX_STEPS + 1 ≤ fuel + steps →
      (∃ k : Nat, steps + k ≤ MAX_STEPS ∧ Stops oracle x xMod3 (t + 2 * (k : Int)) ∧
          (∀ j : Nat, j < k → ¬ Stops oracle x xMod3 (t + 2 * (j : Int))) ∧
          searchLoop oracle x xMod3 fuel t steps =
            .ret (.found (x - (t + 2 * (k : Int))) (x + (t + 2 * (k : Int))) (t + 2 * (k : Int))
              (2 * (t + 2 * (k : Int))))) ∨
      ((∀ k : Nat, steps + k ≤ MAX_STEPS → ¬ Stops oracle x xMod3 (t + 2 * (k : Int))) ∧
        searchLoop oracle x xMod3 fuel t steps = .ret (.failure MSG_LIMIT)) := by
  intro fuel
  induction fuel with
  | zero => intro t steps h1 h2; omega
  | succ fuel ih =>
    intro t steps h1 h2
    have hshift : ∀ k : Nat, t + 2 + 2 * (k : Int) = t + 2 * ((k + 1 : Nat) : Int) := by
      intro k; push_cast; ring
    have ht0 : t + 2 * ((0 : Nat) : Int) = t := by simp
    -- what happens once the displacement `t` has been passed over
    have hnext : ¬ Stops oracle x xMod3 t →
        (if steps + 1 > MAX_STEPS then Run.ret (SearchResult.failure MSG_LIMIT)
          else searchLoop oracle x xMod3 fuel (t + 2) (steps + 1)) =
          searchLoop oracle x xMod3 (fuel + 1) t steps →
        _ := fun hns heq => (show
          (∃ k : Nat, steps + k ≤ MAX_STEPS ∧ Stops oracle x xMod3 (t + 2 * (k : Int)) ∧
            (∀ j : Nat, j < k → ¬ Stops oracle x xMod3 (t + 2 * (j : Int))) ∧
            searchLoop oracle x xMod3 (fuel + 1) t steps =
              .ret (.found (x - (t + 2 * (k : Int))) (x + (t + 2 * (k : Int)))
                (t + 2 * (k : Int)) (2 * (t + 2 * (k : Int))))) ∨
          ((∀ k : Nat, steps + k ≤ MAX_STEPS → ¬ Stops oracle x xMod3 (t + 2 * (k : Int))) ∧
            searchLoop oracle x xMod3 (fuel + 1) t steps = .ret (.failure MSG_LIMIT)) from by
          rw [← heq]
          by_cases hlim : steps + 1 > MAX_STEPS
          · rw [if_pos hlim]
            right
            refine ⟨?_, rfl⟩
            intro k hk
            have : k = 0 := by omega
            subst this
            rw [ht0]; exact hns
          · rw [if_neg hlim]
            rcases ih (t + 2) (steps + 1) (by omega) (by omega) with
              ⟨k, hk, hstop, hbefore, hrun⟩ | ⟨hnone, hrun⟩
            · left
              refine ⟨k + 1, by omega, ?_, ?_, ?_⟩
              · rw [← hshift]; exact hstop
              · intro j hj
                rcases Nat.eq_zero_or_pos j with h0 | hpos
                · subst h0; rw [ht0]; exact hns
                · obtain ⟨j', rfl⟩ : ∃ j', j = j' + 1 := ⟨j - 1, by omega⟩
                  rw [← hshift]; exact hbefore j' (by omega)
              · rw [hrun, hshift]
            · right
              refine ⟨?_, hrun⟩
              intro k hk
              rcases Nat.eq_zero_or_pos k with h0 | hpos
              · subst h0; rw [ht0]; exact hns
              · obtain ⟨k', rfl⟩ : ∃ k', k = k' + 1 := ⟨k - 1, by omega⟩
                rw [← hshift]; exact hnone k' (by omega))
    by_cases hskip : xMod3 = 0 ∧ Int.tmod t 3 = 0
    · apply hnext (fun h => h.1 hskip)
      rw [searchLoop, if_pos hskip]
    · obtain ⟨b, hb, hiff⟩ := pairTest_spec oracle htot x t
      cases b with
      | true =>
        left
        refine ⟨0, by omega, ?_, ?_, ?_⟩
        · rw [ht0]; exact ⟨hskip, hiff.1 rfl⟩
        · intro j hj; omega
        · rw [ht0, searchLoop, if_neg hskip, hb, bind_ret]; rfl
      | false =>
        apply hnext (fun h => by have := hiff.2 h.2; cases this)
        rw [searchLoop, if_neg hskip, hb, bind_ret]
        rfl

/-! ## upeGoldbach -/

theorem guard_iff (E : Int) : (Int.tmod E 2 ≠ 0 ∨ E < 4) ↔ (Odd E ∨ E < 4) := by
  rcases lt_or_le E 4 with h | h
  · simp [h]
  · rw [Int.tmod_eq_emod (by omega) (by omega), Int.odd_iff]
    constructor
    · rintro (h1 | h1)
      · left; omega
      · right; exact h1
    · rintro (h1 | h1)
      · left; omega
      · right; exact h1

theorem upeGoldbachWith_domain (oracle : Int → Run Bool) (fuel : Nat) (E : Int)
    (h : Odd E ∨ E < 4) : upeGoldbachWith oracle fuel E = .ret (.failure MSG_DOMAIN) := by
  unfold upeGoldbachWith
  rw [if_pos ((guard_iff E).2 h)]

theorem upeGoldbachWith_search (oracle : Int → Run Bool) (fuel : Nat) (E : Int)
    (heven : E % 2 = 0) (h4 : 4 ≤ E) :
    upeGoldbachWith oracle fuel E =
      searchLoop oracle (E / 2) (E / 2 % 3) fuel (startT (E / 2)) 0 := by
  unfold upeGoldbachWith
  have hg : ¬ (Int.tmod E 2 ≠ 0 ∨ E < 4) := by
    rw [guard_iff, Int.odd_iff]; omega
  rw [if_neg hg]
  simp only []
  rw [Int.tdiv_eq_ediv (by omega) (by omega), Int.tmod_eq_emod (by omega) (by omega),
    Int.tmod_eq_emod (by omega) (by omega)]
  rfl

theorem startT_cases (x : Int) : startT x = 1 ∨ startT x = 2 := by
  unfold startT
  split
  · exact Or.inl rfl
  · exact Or.inr rfl

theorem startT_parity (x : Int) : (x + startT x) % 2 = 1 := by
  unfold startT
  split <;> omega

/-- The mod-3 rule skips only displacements at which the test would fail. -/
theorem skip_valid (x t : Int) (hx : 2 ≤ x) (ht : 1 ≤ t) (hx3 : x % 3 = 0) (ht3 : t % 3 = 0) :
    ¬ Passes isProbablePrime x t := by
  rintro ⟨_, _, hq⟩
  obtain ⟨n, hn⟩ := Int.eq_ofNat_of_zero_le (by omega : 0 ≤ x + t)
  rw [hn] at hq
  have hn3 : n % 3 = 0 := by omega
  have hn4 : 4 ≤ n := by omega
  have hnp : ¬ n.Prime := by
    intro hp
    rcases (Nat.dvd_prime hp).1 (Nat.dvd_of_mod_eq_zero hn3) with h | h <;> omega
  have hmem : n ∉ smallPrimesNat := fun h => hnp (smallPrimesNat_prime n h)
  rw [isProbablePrime_of_small_dvd n (by omega) hmem ⟨3, by decide, hn3⟩] at hq
  cases hq

theorem stops_iff_passes (x t : Int) (hx : 2 ≤ x) (ht : 1 ≤ t) :
    Stops isProbablePrime x (x % 3) t ↔ Passes isProbablePrime x t := by
  constructor
  · intro h; exact h.2
  · intro h
    refine ⟨?_, h⟩
    rintro ⟨h1, h2⟩
    rw [Int.tmod_eq_emod (by omega) (by omega)] at h2
    exact skip_valid x t hx ht h1 h2 h

/-- Outcome of the search on an even `E ≥ 4`: the first displacement of the
scanned sequence at which both endpoints pass, or the step-limit failure. -/
theorem upeGoldbach_spec (E : Int) (heven : E % 2 = 0) (h4 : 4 ≤ E) :
    (∃ k : Nat, k ≤ MAX_STEPS ∧ Passes isProbablePrime (E / 2) (startT (E / 2) + 2 * (k : Int)) ∧
        (∀ j : Nat, j < k → ¬ Passes isProbablePrime (E / 2) (startT (E / 2) + 2 * (j : Int))) ∧
        upeGoldbach E =
          .ret (.found (E / 2 - (startT (E / 2) + 2 * (k : Int)))
            (E / 2 + (startT (E / 2) + 2 * (k : Int))) (startT (E / 2) + 2 * (k : Int))
            (2 * (startT (E / 2) + 2 * (k : Int))))) ∨
    ((∀ k : Nat, k ≤ MAX_STEPS →
        ¬ Passes isProbablePrime (E / 2) (startT (E / 2) + 2 * (k : Int))) ∧
      upeGoldbach E = .ret (.failure MSG_LIMIT)) := by
  have hx : 2 ≤ E / 2 := by omega
  have ht : ∀ k : Nat, 1 ≤ startT (E / 2) + 2 * (k : Int) := by
    intro k
    rcases startT_cases (E / 2) with h | h <;> rw [h] <;> omega
  unfold upeGoldbach
  rw [upeGoldbachWith_search _ _ E heven h4]
  rcases searchLoop_spec isProbablePrime isProbablePrime_total (E / 2) (E / 2 % 3)
      (MAX_STEPS + 1) (startT (E / 2)) 0 (by omega) (by omega) with
    ⟨k, hk, hstop, hbefore, hrun⟩ | ⟨hnone, hrun⟩
  · left
    refine ⟨k, by omega, (stops_iff_passes _ _ hx (ht k)).1 hstop, ?_, hrun⟩
    intro j hj hpass
    exact hbefore j hj ((stops_iff_passes _ _ hx (ht j)).2 hpass)
  · right
    refine ⟨?_, hrun⟩
    intro k hk hpass
    exact hnone k (by omega) ((stops_iff_passes _ _ hx (ht k)).2 hpass)

/-- Shape of a `Found` record. -/
theorem found_inv (E p q t delta : Int) (heven : E % 2 = 0) (h4 : 4 ≤ E)
    (h : upeGoldbach E = .ret (.found p q t delta)) :
    ∃ k : Nat, k ≤ MAX_STEPS ∧ t = startT (E / 2) + 2 * (k : Int) ∧ p = E / 2 - t ∧
      q = E / 2 + t ∧ delta = 2 * t ∧ Passes isProbablePrime (E / 2) t ∧
      ∀ j : Nat, j < k → ¬ Passes isProbablePrime (E / 2) (startT (E / 2) + 2 * (j : Int)) := by
  rcases upeGoldbach_spec E heven h4 with ⟨k, hk, hpass, hbefore, hrun⟩ | ⟨_, hrun⟩
  · rw [hrun] at h
    injection h with h
    injection h with hp hq ht hd
    subst ht
    exact ⟨k, hk, rfl, hp.symm, hq.symm, hd.symm, hpass, hbefore⟩
  · rw [hrun] at h
    injection h with h
    cases h

theorem isProbablePrime_of_prime_toNat (z : Int) (hp : z.toNat.Prime) :
    1 < z ∧ isProbablePrime z = .ret true := by
  have h2 := hp.two_le
  have hz : 0 ≤ z := by
    by_contra hneg
    rw [Int.toNat_of_nonpos (by omega)] at h2
    omega
  have hcast : (z.toNat : Int) = z := Int.toNat_of_nonneg hz
  refine ⟨by omega, ?_⟩
  rw [← hcast]
  exact isProbablePrime_of_prime _ hp

theorem MSG_LIMIT_ne_MSG_DOMAIN : MSG_LIMIT ≠ MSG_DOMAIN := by decide

theorem upeGoldbach_four : upeGoldbach 4 = .ret (.failure MSG_LIMIT) := by
  rcases upeGoldbach_spec 4 (by decide) (by decide) with ⟨k, _, hpass, _, _⟩ | ⟨_, hrun⟩
  · exfalso
    have hx : (4 : Int) / 2 = 2 := by decide
    have ht : startT 2 = 1 := by decide
    rw [hx, ht] at hpass
    have := hpass.1
    omega
  · exact hrun

set_option maxRecDepth 100000 in
theorem upeGoldbach_hundred : upeGoldbach 100 = .ret (.found 47 53 3 6) := by
  decide!

set_option maxRecDepth 100000 in
theorem upeGoldbach_ten : upeGoldbach 10 = .ret (.found 3 7 2 4) := by
  decide!

/-! ## The claims -/

set_option maxRecDepth 100000 in
/-- C1, at the failing input: `isProbablePrime` returns `true` on
`341550071728321 = 10670053 * 32010157`, a composite below `4 * 10 ^ 18`, so
the oracle is not a primality test on the whole supported range. -/
theorem isProbablePrime_accepts_composite :
    isProbablePrime 341550071728321 = .ret true ∧ ¬ Nat.Prime 341550071728321 ∧
      (341550071728321 : Int) ≤ 4 * 10 ^ 18 := by
  refine ⟨by decide!, ?_, by norm_num⟩
  exact Nat.not_prime_mul' (show 10670053 * 32010157 = 341550071728321 by norm_num)
    (by norm_num) (by norm_num)

set_option maxRecDepth 100000 in
/-- C2, at the failing input: for the even `E = 683100143456610` in
`[4, 4 * 10 ^ 18]`, `upeGoldbach` returns a `Found` record whose `q` is the
composite `341550071728321`. -/
theorem upeGoldbach_returns_composite :
    upeGoldbach 683100143456610 =
        .ret (.found 341550071728289 341550071728321 16 32) ∧
      ¬ Nat.Prime 341550071728321 ∧
      (683100143456610 : Int) % 2 = 0 ∧ (4 : Int) ≤ 683100143456610 ∧
      (683100143456610 : Int) ≤ 4 * 10 ^ 18 := by
  refine ⟨by decide!, ?_, by decide, by decide, by norm_num⟩
  exact Nat.not_prime_mul' (show 10670053 * 32010157 = 341550071728321 by norm_num)
    (by norm_num) (by norm_num)

/-- C3: for every even `E ≥ 4`, a `Found` record `{p, q, t, delta}` returned by
`upeGoldbach(E)` satisfies `p = E/2 - t`, `q = E/2 + t`, `p + q = E`, `p ≤ q`
and `delta = 2 * t = q - p`. -/
theorem found_fields (E p q t delta : Int) (heven : E % 2 = 0) (h4 : 4 ≤ E)
    (h : upeGoldbach E = .ret (.found p q t delta)) :
    p = E / 2 - t ∧ q = E / 2 + t ∧ p + q = E ∧ p ≤ q ∧ delta = 2 * t ∧ delta = q - p := by
  obtain ⟨k, _, ht, hp, hq, hd, _, _⟩ := found_inv E p q t delta heven h4 h
  have ht1 : 1 ≤ t := by
    rcases startT_cases (E / 2) with h0 | h0 <;> rw [h0] at ht <;> omega
  refine ⟨hp, hq, by omega, by omega, hd, by omega⟩

/-- Witness of C3 at `E = 100`. -/
theorem found_fields_witness :
    (47 : Int) = 100 / 2 - 3 ∧ (53 : Int) = 100 / 2 + 3 ∧ (47 : Int) + 53 = 100 ∧
      (47 : Int) ≤ 53 ∧ (6 : Int) = 2 * 3 ∧ (6 : Int) = 53 - 47 :=
  found_fields 100 47 53 3 6 (by decide) (by decide) upeGoldbach_hundred

/-- C4: for every even `E ≥ 4` with `x = E/2`, if `upeGoldbach(E)` returns
`Found` with displacement `t`, then `t` belongs to the scanned sequence
`t0, t0 + 2, t0 + 4, ...` (`t0 = 1` for even `x`, `2` for odd `x`), both
endpoints pass at `t`, and at every earlier displacement `t'` of the sequence,
skipped or not, it is not the case that `x - t' > 1` and the oracle accepts
both `x - t'` and `x + t'`. -/
theorem found_is_first (E p q t delta : Int) (heven : E % 2 = 0) (h4 : 4 ≤ E)
    (h : upeGoldbach E = .ret (.found p q t delta)) :
    (∃ k : Nat, t = startT (E / 2) + 2 * (k : Int)) ∧
      (E / 2 - t > 1 ∧ isProbablePrime (E / 2 - t) = .ret true ∧
        isProbablePrime (E / 2 + t) = .ret true) ∧
      ∀ j : Nat, startT (E / 2) + 2 * (j : Int) < t →
        ¬ (E / 2 - (startT (E / 2) + 2 * (j : Int)) > 1 ∧
          isProbablePrime (E / 2 - (startT (E / 2) + 2 * (j : Int))) = .ret true ∧
          isProbablePrime (E / 2 + (startT (E / 2) + 2 * (j : Int))) = .ret true) := by
  obtain ⟨k, _, ht, _, _, _, hpass, hbefore⟩ := found_inv E p q t delta heven h4 h
  refine ⟨⟨k, ht⟩, hpass, ?_⟩
  intro j hj
  exact hbefore j (by omega)

/-- Witness of C4 at `E = 100`, where the search returns `t = 3`. -/
theorem found_is_first_witness :
    (∃ k : Nat, (3 : Int) = startT (100 / 2) + 2 * (k : Int)) ∧
      ((100 : Int) / 2 - 3 > 1 ∧ isProbablePrime (100 / 2 - 3) = .ret true ∧
        isProbablePrime (100 / 2 + 3) = .ret true) ∧
      ∀ j : Nat, startT (100 / 2) + 2 * (j : Int) < 3 →
        ¬ ((100 : Int) / 2 - (startT (100 / 2) + 2 * (j : Int)) > 1 ∧
          isProbablePrime (100 / 2 - (startT (100 / 2) + 2 * (j : Int))) = .ret true ∧
          isProbablePrime (100 / 2 + (startT (100 / 2) + 2 * (j : Int))) = .ret true) :=
  found_is_first 100 47 53 3 6 (by decide) (by decide) upeGoldbach_hundred

/-- C5 as stated fails at `E = 10`: the search returns `t = 2` (the pair
`3 + 7`), although the smaller displacement `t' = 0` of the same parity gives
the prime pair `5 + 5`. -/
theorem smallest_nonneg_displacement_counterexample :
    upeGoldbach 10 = .ret (.found 3 7 2 4) ∧
      ∃ t' : Int, 0 ≤ t' ∧ t' < 2 ∧ t' % 2 = 2 % 2 ∧
        Nat.Prime ((10 : Int) / 2 - t').toNat ∧ Nat.Prime ((10 : Int) / 2 + t').toNat := by
  refine ⟨upeGoldbach_ten, 0, by decide, by decide, by decide, ?_, ?_⟩
  · show Nat.Prime 5
    norm_num
  · show Nat.Prime 5
    norm_num

/-- C5, amended: for every even `E ≥ 4` for which `upeGoldbach(E)` returns
`Found` with displacement `t`, there is no `t'` with `1 ≤ t' < t`, of the same
parity as `t`, such that `E/2 - t'` and `E/2 + t'` are both prime. -/
theorem smallest_positive_displacement (E p q t delta : Int) (heven : E % 2 = 0) (h4 : 4 ≤ E)
    (h : upeGoldbach E = .ret (.found p q t delta))
    (t' : Int) (h1 : 1 ≤ t') (hlt : t' < t) (hpar : t' % 2 = t % 2) :
    ¬ (Nat.Prime (E / 2 - t').toNat ∧ Nat.Prime (E / 2 + t').toNat) := by
  obtain ⟨k, _, ht, _, _, _, _, hbefore⟩ := found_inv E p q t delta heven h4 h
  rintro ⟨hp1, hp2⟩
  have hj : ∃ j : Nat, j < k ∧ t' = startT (E / 2) + 2 * (j : Int) := by
    rcases startT_cases (E / 2) with h0 | h0
    · rw [h0] at ht ⊢
      exact ⟨((t' - 1) / 2).toNat, by omega, by omega⟩
    · rw [h0] at ht ⊢
      exact ⟨((t' - 2) / 2).toNat, by omega, by omega⟩
  obtain ⟨j, hjk, hj⟩ := hj
  apply hbefore j hjk
  rw [← hj]
  obtain ⟨hgt, hacc1⟩ := isProbablePrime_of_prime_toNat _ hp1
  obtain ⟨_, hacc2⟩ := isProbablePrime_of_prime_toNat _ hp2
  exact ⟨hgt, hacc1, hacc2⟩

/-- Witness of C5 (amended) at `E = 100`, returned `t = 3`, and `t' = 1`:
`49` and `51` are not both prime. -/
theorem smallest_positive_displacement_witness :
    ¬ (Nat.Prime ((100 : Int) / 2 - 1).toNat ∧ Nat.Prime ((100 : Int) / 2 + 1).toNat) :=
  smallest_positive_displacement 100 47 53 3 6 (by decide) (by decide) upeGoldbach_hundred
    1 (by decide) (by decide) (by decide)

/-- C6 as stated fails: for `E = 100` the search does not return the pair
`3 + 97` with `t = 47`. -/
theorem hundred_counterexample :
    ¬ ∃ delta : Int, upeGoldbach 100 = .ret (.found 3 97 47 delta) := by
  rintro ⟨delta, h⟩
  rw [upeGoldbach_hundred] at h
  injection h with h
  injection h with hp
  omega

/-- C6, amended: for `E = 100`, `upeGoldbach` returns `Found` with `p = 47`,
`q = 53`, `t = 3`, `delta = 6`, and this is the minimal symmetric pair: no
displacement `0 ≤ t' < 3` gives two primes `50 - t'`, `50 + t'`. -/
theorem hundred_result :
    upeGoldbach 100 = .ret (.found 47 53 3 6) ∧
      ∀ t' : Nat, t' < 3 → ¬ (Nat.Prime (50 - t') ∧ Nat.Prime (50 + t')) := by
  refine ⟨by rw [upeGoldbach_hundred], ?_⟩
  intro t' ht
  interval_cases t' <;> norm_num

/-- C7 as stated fails: for `E = 4` the search does not return
`Found` with `p = 2`, `q = 2`, `t = 0`, `delta = 0`. -/
theorem four_counterexample : upeGoldbach 4 ≠ .ret (.found 2 2 0 0) := by
  rw [upeGoldbach_four]
  intro h
  injection h with h
  cases h

/-- C7, amended: for `E = 4` the scan starts at `t = 1`, every displacement
`t = 1 + 2 * k` it examines has `p = 2 - t ≤ 1`, and `upeGoldbach` returns
the failure "Search limit exceeded". -/
theorem four_result :
    startT (4 / 2) = 1 ∧ (∀ k : Nat, (4 : Int) / 2 - (startT (4 / 2) + 2 * (k : Int)) ≤ 1) ∧
      upeGoldbach 4 = .ret (.failure MSG_LIMIT) := by
  have hx : (4 : Int) / 2 = 2 := by decide
  have ht : startT 2 = 1 := by decide
  rw [hx, ht]
  refine ⟨rfl, fun k => by omega, ?_⟩
  rcases upeGoldbach_spec 4 (by decide) (by decide) with ⟨k, _, hpass, _, _⟩ | ⟨_, hrun⟩
  · exfalso
    rw [hx, ht] at hpass
    have := hpass.1
    omega
  · exact hrun

/-- C8: `isProbablePrime` has no false negatives, for every integer `n ≥ 0`
without upper bound: if it returns `false` then `n` is not prime, and every
prime `n` yields `true`. -/
theorem no_false_negatives (n : Nat) :
    (isProbablePrime (n : Int) = .ret false → ¬ n.Prime) ∧
      (n.Prime → isProbablePrime (n : Int) = .ret true) := by
  refine ⟨fun hfalse hp => ?_, isProbablePrime_of_prime n⟩
  rw [isProbablePrime_of_prime n hp] at hfalse
  cases hfalse

/-- C9: for every integer `n` in `[0, 10 ^ 6]`, `isProbablePrime(n)` returns the
same boolean as the naive reference test that trial-divides `n` by every
integer from 2 up to the square root of `n`. -/
theorem agrees_with_naive (n : Nat) (hn : n ≤ 10 ^ 6) :
    isProbablePrime (n : Int) = .ret (naiveIsPrime n) := by
  rw [isProbablePrime_eq_decide n hn]
  congr 1
  by_cases hp : n.Prime
  · rw [(naiveIsPrime_iff n).2 hp]; simp [hp]
  · have : naiveIsPrime n = false := by
      cases hb : naiveIsPrime n with
      | false => rfl
      | true => exact absurd ((naiveIsPrime_iff n).1 hb) hp
    rw [this]; simp [hp]

/-- Witness of C9 at `n = 999983`. -/
theorem agrees_with_naive_witness :
    isProbablePrime ((999983 : Nat) : Int) = .ret (naiveIsPrime 999983) :=
  agrees_with_naive 999983 (by norm_num)

/-- C10: for every integer `E`, negative values included, `upeGoldbach(E)`
returns the domain failure "E must be an even integer ≥ 4" if and only if `E`
is odd or `E < 4`; in that case the result does not depend on the loop budget
or on the oracle, so no displacement is examined and the oracle is never
called (the result is the same with no budget at all and with an oracle that
never returns). -/
theorem domain_failure_iff (E : Int) :
    (upeGoldbach E = .ret (.failure MSG_DOMAIN) ↔ (Odd E ∨ E < 4)) ∧
      ((Odd E ∨ E < 4) → ∀ (oracle : Int → Run Bool) (fuel : Nat),
        upeGoldbachWith oracle fuel E = .ret (.failure MSG_DOMAIN)) := by
  refine ⟨⟨fun h => ?_, fun h => upeGoldbachWith_domain _ _ E h⟩,
    fun h oracle fuel => upeGoldbachWith_domain oracle fuel E h⟩
  by_contra hdom
  rw [Int.odd_iff] at hdom
  rcases upeGoldbach_spec E (by omega) (by omega) with ⟨k, _, _, _, hrun⟩ | ⟨_, hrun⟩
  · rw [hrun] at h
    injection h with h
    cases h
  · rw [hrun] at h
    injection h with h
    injection h with h
    exact MSG_LIMIT_ne_MSG_DOMAIN h

/-! ## computeUPE: validation of the parsed input -/

theorem MSG_LIMIT_ne_MSG_TOO_LARGE : MSG_LIMIT ≠ MSG_TOO_LARGE := by decide

theorem computeUPEFrom_valid (search : Int → Run SearchResult) (E : Int) (heven : E % 2 = 0)
    (h4 : 4 ≤ E) :
    computeUPEFrom search (some E) =
      if E > LIMIT then .ret (.message MSG_TOO_LARGE)
      else search E >>= fun res => .ret (render res) := by
  have hg : ¬ (E < 4 ∨ Int.tmod E 2 ≠ 0) := by
    rw [Int.tmod_eq_emod (by omega) (by omega)]; omega
  rw [computeUPEFrom, if_neg hg]

/-- The search started on an even `E ≥ 4` never reports the too-large message. -/
theorem upeGoldbach_render_ne_too_large (E : Int) (heven : E % 2 = 0) (h4 : 4 ≤ E) :
    (upeGoldbach E >>= fun res => Run.ret (render res)) ≠ .ret (.message MSG_TOO_LARGE) := by
  intro h
  rcases upeGoldbach_spec E heven h4 with ⟨k, _, _, _, hrun⟩ | ⟨_, hrun⟩
  · rw [hrun, bind_ret] at h
    injection h with h
    cases h
  · rw [hrun, bind_ret] at h
    injection h with h
    injection h with h
    exact MSG_LIMIT_ne_MSG_TOO_LARGE h

theorem toBigInt_limit_plus_two :
    toBigInt (.text "4000000000000000002") = some 4000000000000000002 := by decide

theorem toBigInt_limit :
    toBigInt (.text "4000000000000000000") = some 4000000000000000000 := by decide

/-- C11: in the validation performed by `computeUPE`, for every parsed integer
`E` that is even and `≥ 4`, the outcome is the message "E is too large" if and
only if `E > 4,000,000,000,000,000,000`, and in that case the outcome is the
same for every search function, so `upeGoldbach` is not invoked; for
`E ≤ 4 * 10 ^ 18` the outcome is that of the search on `E`.  In particular the
input `4 * 10 ^ 18 + 2` is rejected as too large and `4 * 10 ^ 18` itself is
passed to the search. -/
theorem too_large_iff :
    (∀ E : Int, E % 2 = 0 → 4 ≤ E →
      (computeUPEFrom upeGoldbach (some E) = .ret (.message MSG_TOO_LARGE) ↔
          E > 4000000000000000000) ∧
        (E > 4000000000000000000 → ∀ search : Int → Run SearchResult,
          computeUPEFrom search (some E) = .ret (.message MSG_TOO_LARGE)) ∧
        (E ≤ 4000000000000000000 → ∀ search : Int → Run SearchResult,
          computeUPEFrom search (some E) = search E >>= fun res => .ret (render res))) ∧
      computeUPE "4000000000000000002" = .ret (.message MSG_TOO_LARGE) ∧
      computeUPE "4000000000000000000" =
        upeGoldbach 4000000000000000000 >>= fun res => .ret (render res) := by
  refine ⟨?_, ?_, ?_⟩
  · intro E heven h4
    have hbig : E > 4000000000000000000 → ∀ search : Int → Run SearchResult,
        computeUPEFrom search (some E) = .ret (.message MSG_TOO_LARGE) := by
      intro h search
      rw [computeUPEFrom_valid search E heven h4, if_pos (by unfold LIMIT; exact h)]
    have hsmall : E ≤ 4000000000000000000 → ∀ search : Int → Run SearchResult,
        computeUPEFrom search (some E) = search E >>= fun res => .ret (render res) := by
      intro h search
      rw [computeUPEFrom_valid search E heven h4, if_neg (by unfold LIMIT; omega)]
    refine ⟨⟨fun h => ?_, fun h => hbig h _⟩, hbig, hsmall⟩
    by_contra hle
    rw [hsmall (by omega)] at h
    exact upeGoldbach_render_ne_too_large E heven h4 h
  · unfold computeUPE
    rw [toBigInt_limit_plus_two]
    decide
  · unfold computeUPE
    rw [toBigInt_limit]
    exact computeUPEFrom_valid upeGoldbach 4000000000000000000 (by decide) (by decide)

/-- Witness of C11 at `E = 4 * 10 ^ 18 + 2`. -/
theorem too_large_iff_witness :
    (computeUPEFrom upeGoldbach (some 4000000000000000002) = .ret (.message MSG_TOO_LARGE) ↔
        (4000000000000000002 : Int) > 4000000000000000000) ∧
      ((4000000000000000002 : Int) > 4000000000000000000 → ∀ search : Int → Run SearchResult,
        computeUPEFrom search (some 4000000000000000002) = .ret (.message MSG_TOO_LARGE)) ∧
      ((4000000000000000002 : Int) ≤ 4000000000000000000 → ∀ search : Int → Run SearchResult,
        computeUPEFrom search (some 4000000000000000002) =
          search 4000000000000000002 >>= fun res => .ret (render res)) :=
  too_large_iff.1 4000000000000000002 (by decide) (by decide)

/-! ## Safety of the oracle -/

theorem bigRem_total (a b : Int) (hb : b ≠ 0) : ∃ r, bigRem a b = .ret r := by
  unfold bigRem
  rw [if_neg hb]
  exact ⟨_, rfl⟩

theorem SMALL_PRIMES_ne_zero : ∀ p ∈ SMALL_PRIMES, p ≠ 0 := by decide

theorem stripTwos_zero (fuel : Nat) (s : Int) : stripTwos fuel 0 s = .diverge := by
  induction fuel generalizing s with
  | zero => rfl
  | succ fuel ih =>
    unfold stripTwos
    have h0 : Int.land 0 1 = 0 := by decide
    have h1 : (0 : Int) >>> 1 = 0 := by decide
    rw [if_pos h0]
    simp only []
    rw [h1]
    exact ih (s + 1)

/-- C12: `isProbablePrime` is total and error-free: for every integer `n ≥ 0`
it returns a boolean (no `RangeError`, no divergence).  The loop that strips
factors of two is reached only with `d = n - 1 > 0` and terminates from there
(from `d = 0` it would not), and every modulus used, an entry of
`SMALL_PRIMES` or `n ≥ 2` itself, is non-zero, so each reduction returns. -/
theorem isProbablePrime_safe (n : Nat) :
    (∃ b, isProbablePrime (n : Int) = .ret b) ∧
      (¬ (n : Int) < 2 → 0 < (n : Int) - 1 ∧
        ∃ d s, stripTwos ((n : Int) - 1).natAbs ((n : Int) - 1) 0 = .ret (d, s)) ∧
      (∀ fuel s, stripTwos fuel 0 s = .diverge) ∧
      (∀ p ∈ SMALL_PRIMES, ∀ a, ∃ r, bigRem a p = .ret r) ∧
      (¬ (n : Int) < 2 → ∀ a, ∃ r, bigRem a (n : Int) = .ret r) := by
  refine ⟨isProbablePrime_total_nat n, ?_, stripTwos_zero, ?_, ?_⟩
  · intro h2
    refine ⟨by omega, ?_⟩
    have hcast : (n : Int) - 1 = ((n - 1 : Nat) : Int) := by
      push_cast [Nat.cast_sub (by omega : 1 ≤ n)]; ring
    rw [hcast, Int.natAbs_ofNat]
    obtain ⟨d, k, hrun, _, _⟩ := stripTwos_natCast (n - 1) (n - 1) 0 (by omega) (le_refl _)
    exact ⟨_, _, hrun⟩
  · intro p hp a
    exact bigRem_total a p (SMALL_PRIMES_ne_zero p hp)
  · intro h2 a
    exact bigRem_total a _ (by omega)

/-! ## Termination of the search -/

theorem searchLoop_no_early_failure (oracle : Int → Run Bool) (x xMod3 : Int) :
    ∀ (fuel : Nat) (t : Int) (steps : Nat), fuel + steps ≤ MAX_STEPS → ∀ msg,
      searchLoop oracle x xMod3 fuel t steps ≠ .ret (.failure msg) := by
  intro fuel
  induction fuel with
  | zero => intro t steps _ msg h; cases h
  | succ fuel ih =>
    intro t steps hle msg
    have hlim : ¬ (steps + 1 > MAX_STEPS) := by omega
    rw [searchLoop]
    by_cases hskip : xMod3 = 0 ∧ Int.tmod t 3 = 0
    · rw [if_pos hskip, if_neg hlim]
      exact ih (t + 2) (steps + 1) (by omega) msg
    · rw [if_neg hskip]
      cases hpt : pairTest oracle (x - t) (x + t) with
      | ret b =>
        rw [bind_ret]
        cases b with
        | true =>
          intro h
          injection h with h
          cases h
        | false =>
          simp only [Bool.false_eq_true, if_false]
          rw [if_neg hlim]
          exact ih (t + 2) (steps + 1) (by omega) msg
      | rangeError => intro h; cases h
      | diverge => intro h; cases h

theorem searchLoop_succ_fuel (oracle : Int → Run Bool) (x xMod3 : Int) :
    ∀ (fuel : Nat) (t : Int) (steps : Nat), steps ≤ MAX_STEPS → MAX_STEPS + 1 ≤ fuel + steps →
      searchLoop oracle x xMod3 (fuel + 1) t steps = searchLoop oracle x xMod3 fuel t steps := by
  intro fuel
  induction fuel with
  | zero => intro t steps h1 h2; omega
  | succ fuel ih =>
    intro t steps h1 h2
    rw [searchLoop.eq_2 oracle x xMod3 t steps (fuel + 1),
      searchLoop.eq_2 oracle x xMod3 t steps fuel]
    by_cases hlim : steps + 1 > MAX_STEPS
    · simp only [hlim, if_true]
    · simp only [hlim, if_false]
      rw [ih (t + 2) (steps + 1) (by omega) (by omega)]

theorem searchLoop_more_fuel (oracle : Int → Run Bool) (x xMod3 : Int) (t : Int) (steps : Nat)
    (h1 : steps ≤ MAX_STEPS) :
    ∀ extra fuel : Nat, MAX_STEPS + 1 ≤ fuel + steps →
      searchLoop oracle x xMod3 (fuel + extra) t steps = searchLoop oracle x xMod3 fuel t steps := by
  intro extra
  induction extra with
  | zero => intro fuel _; rfl
  | succ extra ih =>
    intro fuel h2
    rw [← Nat.add_assoc, searchLoop_succ_fuel oracle x xMod3 (fuel + extra) t steps h1 (by omega)]
    exact ih fuel h2

theorem upeGoldbach_total (E : Int) : ∃ r, upeGoldbach E = .ret r := by
  by_cases hdom : Odd E ∨ E < 4
  · exact ⟨_, upeGoldbachWith_domain _ _ E hdom⟩
  · rw [Int.odd_iff] at hdom
    rcases upeGoldbach_spec E (by omega) (by omega) with ⟨_, _, _, _, hrun⟩ | ⟨_, hrun⟩
    · exact ⟨_, hrun⟩
    · exact ⟨_, hrun⟩

/-- C13: for every integer `E`, `upeGoldbach(E)` terminates: a budget of
`MAX_STEPS + 1 = 5,000,001` executions of the loop body always gives a result,
whether or not a prime pair exists, and a larger budget gives the same result.
Besides success only the step limit ends the loop: on an even `E ≥ 4` no run
of at most `MAX_STEPS` executions of the body returns a failure, whatever the
oracle. -/
theorem search_terminates (E : Int) :
    (∃ r, upeGoldbach E = .ret r) ∧ MAX_STEPS + 1 = 5000001 ∧
      (∀ fuel : Nat, MAX_STEPS + 1 ≤ fuel →
        upeGoldbachWith isProbablePrime fuel E = upeGoldbach E) ∧
      (E % 2 = 0 → 4 ≤ E → ∀ (oracle : Int → Run Bool) (fuel : Nat) (msg : String),
        fuel ≤ MAX_STEPS → upeGoldbachWith oracle fuel E ≠ .ret (.failure msg)) := by
  refine ⟨upeGoldbach_total E, rfl, ?_, ?_⟩
  · intro fuel hfuel
    by_cases hdom : Odd E ∨ E < 4
    · unfold upeGoldbach
      rw [upeGoldbachWith_domain _ _ E hdom, upeGoldbachWith_domain _ _ E hdom]
    · rw [Int.odd_iff] at hdom
      unfold upeGoldbach
      rw [upeGoldbachWith_search _ _ E (by omega) (by omega),
        upeGoldbachWith_search _ _ E (by omega) (by omega)]
      obtain ⟨extra, rfl⟩ : ∃ extra, fuel = MAX_STEPS + 1 + extra := ⟨fuel - (MAX_STEPS + 1), by omega⟩
      exact searchLoop_more_fuel _ _ _ _ 0 (by omega) extra (MAX_STEPS + 1) (by omega)
  · intro heven h4 oracle fuel msg hfuel
    rw [upeGoldbachWith_search oracle fuel E heven h4]
    exact searchLoop_no_early_failure oracle _ _ fuel _ 0 (by omega) msg

/-! ## Reach of the search -/

/-- C16: for every even `E ≥ 4` with `x = E/2` and starting displacement `t0`,
`upeGoldbach(E)` returns the failure "Search limit exceeded" if and only if
none of the 5,000,001 displacements `t = t0 + 2 * k`, `0 ≤ k ≤ 5,000,000`,
satisfies `x - t > 1`, `isProbablePrime(x - t)` and `isProbablePrime(x + t)`;
consequently every `Found` result has `t ≤ t0 + 10,000,000`. -/
theorem limit_exceeded_iff (E : Int) (heven : E % 2 = 0) (h4 : 4 ≤ E) :
    (upeGoldbach E = .ret (.failure MSG_LIMIT) ↔
        ∀ k : Nat, k ≤ 5000000 →
          ¬ (E / 2 - (startT (E / 2) + 2 * (k : Int)) > 1 ∧
            isProbablePrime (E / 2 - (startT (E / 2) + 2 * (k : Int))) = .ret true ∧
            isProbablePrime (E / 2 + (startT (E / 2) + 2 * (k : Int))) = .ret true)) ∧
      (∀ p q t delta : Int, upeGoldbach E = .ret (.found p q t delta) →
        t ≤ startT (E / 2) + 10000000) := by
  have hmax : MAX_STEPS = 5000000 := rfl
  constructor
  · rcases upeGoldbach_spec E heven h4 with ⟨k, hk, hpass, _, hrun⟩ | ⟨hnone, hrun⟩
    · constructor
      · intro h
        rw [hrun] at h
        injection h with h
        cases h
      · intro h
        exact absurd hpass (h k (by omega))
    · constructor
      · intro _ k hk
        exact hnone k (by omega)
      · intro _
        exact hrun
  · intro p q t delta h
    obtain ⟨k, hk, ht, _⟩ := found_inv E p q t delta heven h4 h
    omega

/-- Witness of C16 at `E = 4`. -/
theorem limit_exceeded_iff_witness :
    (upeGoldbach 4 = .ret (.failure MSG_LIMIT) ↔
        ∀ k : Nat, k ≤ 5000000 →
          ¬ ((4 : Int) / 2 - (startT (4 / 2) + 2 * (k : Int)) > 1 ∧
            isProbablePrime (4 / 2 - (startT (4 / 2) + 2 * (k : Int))) = .ret true ∧
            isProbablePrime (4 / 2 + (startT (4 / 2) + 2 * (k : Int))) = .ret true)) ∧
      (∀ p q t delta : Int, upeGoldbach 4 = .ret (.found p q t delta) →
        t ≤ startT (4 / 2) + 10000000) :=
  limit_exceeded_iff 4 (by decide) (by decide)

/-! ## Parity of the candidates -/

theorem pairTest_congr (o1 o2 : Int → Run Bool) (p q : Int) (hp : o1 p = o2 p)
    (hq : o1 q = o2 q) : pairTest o1 p q = pairTest o2 p q := by
  unfold pairTest
  rw [hp, hq]

theorem searchLoop_congr_odd (o1 o2 : Int → Run Bool)
    (hagree : ∀ m : Int, m % 2 = 1 → o1 m = o2 m) (x xMod3 : Int) :
    ∀ (fuel : Nat) (t : Int) (steps : Nat), (x + t) % 2 = 1 →
      searchLoop o1 x xMod3 fuel t steps = searchLoop o2 x xMod3 fuel t steps := by
  intro fuel
  induction fuel with
  | zero => intro t steps _; rfl
  | succ fuel ih =>
    intro t steps hodd
    rw [searchLoop.eq_2 o1, searchLoop.eq_2 o2,
      pairTest_congr o1 o2 (x - t) (x + t) (hagree _ (by omega)) (hagree _ hodd),
      ih (t + 2) (steps + 1) (by omega)]

/-- C17: for every even `E ≥ 4`, the displacements scanned by `upeGoldbach`,
`t0, t0 + 2, ...` with `t0 = 1` for even `x = E/2` and `t0 = 2` for odd `x`,
have parity opposite to that of `x`, so every candidate `p = x - t`,
`q = x + t` is odd: the search consults the oracle on odd numbers only (two
oracles that agree on the odd numbers give the same result), and every
returned `Found` pair consists of two odd numbers. -/
theorem candidates_odd (E : Int) (heven : E % 2 = 0) (h4 : 4 ≤ E) :
    (E / 2 + startT (E / 2)) % 2 = 1 ∧
      (∀ k : Nat, (E / 2 + (startT (E / 2) + 2 * (k : Int))) % 2 = 1 ∧
        (E / 2 - (startT (E / 2) + 2 * (k : Int))) % 2 = 1) ∧
      (∀ (o1 o2 : Int → Run Bool) (fuel : Nat), (∀ m : Int, m % 2 = 1 → o1 m = o2 m) →
        upeGoldbachWith o1 fuel E = upeGoldbachWith o2 fuel E) ∧
      (∀ p q t delta : Int, upeGoldbach E = .ret (.found p q t delta) →
        (E / 2 + t) % 2 = 1 ∧ p % 2 = 1 ∧ q % 2 = 1) := by
  have hpar := startT_parity (E / 2)
  refine ⟨hpar, fun k => by omega, ?_, ?_⟩
  · intro o1 o2 fuel hagree
    rw [upeGoldbachWith_search o1 fuel E heven h4, upeGoldbachWith_search o2 fuel E heven h4]
    exact searchLoop_congr_odd o1 o2 hagree _ _ fuel _ 0 hpar
  · intro p q t delta h
    obtain ⟨k, _, ht, hp, hq, _⟩ := found_inv E p q t delta heven h4 h
    omega

/-- Witness of C17 at `E = 100`. -/
theorem candidates_odd_witness :
    ((100 : Int) / 2 + startT (100 / 2)) % 2 = 1 ∧
      (∀ k : Nat, ((100 : Int) / 2 + (startT (100 / 2) + 2 * (k : Int))) % 2 = 1 ∧
        ((100 : Int) / 2 - (startT (100 / 2) + 2 * (k : Int))) % 2 = 1) ∧
      (∀ (o1 o2 : Int → Run Bool) (fuel : Nat), (∀ m : Int, m % 2 = 1 → o1 m = o2 m) →
        upeGoldbachWith o1 fuel 100 = upeGoldbachWith o2 fuel 100) ∧
      (∀ p q t delta : Int, upeGoldbach 100 = .ret (.found p q t delta) →
        ((100 : Int) / 2 + t) % 2 = 1 ∧ p % 2 = 1 ∧ q % 2 = 1) :=
  candidates_odd 100 (by decide) (by decide)

/-! ## The witness loop is reached only above 97 -/

theorem rough_ge_101 (n : Nat) (hn : 2 ≤ n) (hrough : ∀ p ∈ smallPrimesNat, n % p ≠ 0) :
    101 ≤ n := by
  have hpp : (n.minFac).Prime := Nat.minFac_prime (by omega)
  have hpdvd : n.minFac ∣ n := Nat.minFac_dvd n
  have hp101 : 101 ≤ n.minFac := by
    by_contra hlt
    have := prime_lt_mem_smallPrimesNat _ hpp (by omega)
    exact hrough _ this (Nat.mod_eq_zero_of_dvd hpdvd)
  exact le_trans hp101 (Nat.le_of_dvd (by omega) hpdvd)

/-- C19: the degenerate-witness case cannot occur in the Miller–Rabin stage:
whenever `isProbablePrime` reaches the witness loop (`n ≥ 2` and the loop over
`SMALL_PRIMES` ran to its end), `n > 97` holds, so for every base `a` in
`MR_BASES_64` the reduction `a % n` is `a` itself, which is not zero, and the
branch `a % n === 0n` is not taken. -/
theorem witness_never_degenerate (n : Int) (h2 : ¬ n < 2)
    (hfilter : smallPrimeLoop n SMALL_PRIMES = .ret none) :
    97 < n ∧ ∀ a ∈ MR_BASES_64, bigRem a n = .ret a ∧ a ≠ 0 := by
  obtain ⟨k, rfl⟩ := Int.eq_ofNat_of_zero_le (by omega : 0 ≤ n)
  obtain ⟨r, hr, hnone, _⟩ := smallPrimeLoop_natCast k smallPrimesNat smallPrimesNat_ne_zero
  rw [SMALL_PRIMES_eq, hr] at hfilter
  have hrn : r = none := by injection hfilter
  have h101 := rough_ge_101 k (by omega) (hnone.1 hrn)
  refine ⟨by omega, ?_⟩
  intro a ha
  have hbound : ∀ c ∈ MR_BASES_64, 0 < c ∧ c ≤ 17 := by decide
  obtain ⟨hpos, hle⟩ := hbound a ha
  refine ⟨?_, by omega⟩
  unfold bigRem
  rw [if_neg (by omega), Int.tmod_eq_of_lt (by omega) (by omega)]

/-- Witness of C19 at `n = 101`. -/
theorem witness_never_degenerate_witness :
    (97 : Int) < 101 ∧ ∀ a ∈ MR_BASES_64, bigRem a 101 = .ret a ∧ a ≠ 0 :=
  witness_never_degenerate 101 (by decide) (by decide)

/-! ## The displacement zero -/

theorem upeGoldbach_six : upeGoldbach 6 = .ret (.failure MSG_LIMIT) := by
  rcases upeGoldbach_spec 6 (by decide) (by decide) with ⟨k, _, hpass, _, _⟩ | ⟨_, hrun⟩
  · exfalso
    have hx : (6 : Int) / 2 = 3 := by decide
    have ht : startT 3 = 2 := by decide
    rw [hx, ht] at hpass
    have := hpass.1
    omega
  · exact hrun

/-- C20: `upeGoldbach` never returns the displacement `t = 0`: for every even
`E ≥ 4`, a `Found` result has `t ≥ 1`, `2 ≤ p < q` and `delta ≥ 2`, so the pair
`p = q = E/2` is never returned.  As a consequence, for `E = 4` and for `E = 6`
every examined candidate has `p = E/2 - t ≤ 1` and the result is the failure
"Search limit exceeded". -/
theorem never_zero_displacement :
    (∀ E p q t delta : Int, E % 2 = 0 → 4 ≤ E → upeGoldbach E = .ret (.found p q t delta) →
        1 ≤ t ∧ 2 ≤ p ∧ p < q ∧ 2 ≤ delta) ∧
      ((∀ k : Nat, (4 : Int) / 2 - (startT (4 / 2) + 2 * (k : Int)) ≤ 1) ∧
        upeGoldbach 4 = .ret (.failure MSG_LIMIT)) ∧
      ((∀ k : Nat, (6 : Int) / 2 - (startT (6 / 2) + 2 * (k : Int)) ≤ 1) ∧
        upeGoldbach 6 = .ret (.failure MSG_LIMIT)) := by
  have h4x : (4 : Int) / 2 = 2 := by decide
  have h4t : startT 2 = 1 := by decide
  have h6x : (6 : Int) / 2 = 3 := by decide
  have h6t : startT 3 = 2 := by decide
  refine ⟨?_, ⟨?_, upeGoldbach_four⟩, ⟨?_, upeGoldbach_six⟩⟩
  · intro E p q t delta heven h4 h
    obtain ⟨k, _, ht, hp, hq, hd, hpass, _⟩ := found_inv E p q t delta heven h4 h
    have ht1 : 1 ≤ t := by
      rcases startT_cases (E / 2) with h0 | h0 <;> rw [h0] at ht <;> omega
    have hp1 := hpass.1
    exact ⟨ht1, by omega, by omega, by omega⟩
  · intro j; rw [h4x, h4t]; omega
  · intro j; rw [h6x, h6t]; omega

/-- Witness of C20 at `E = 100`, where the search returns `47 + 53` with `t = 3`. -/
theorem never_zero_displacement_witness :
    (1 : Int) ≤ 3 ∧ (2 : Int) ≤ 47 ∧ (47 : Int) < 53 ∧ (2 : Int) ≤ 6 :=
  never_zero_displacement.1 100 47 53 3 6 (by decide) (by decide) upeGoldbach_hundred

/-! ## The mod-3 rule is a valid pruning -/

theorem pairTest_false_of_not_passes (x t : Int) (h : ¬ Passes isProbablePrime x t) :
    pairTest isProbablePrime (x - t) (x + t) = .ret false := by
  obtain ⟨b, hb, hiff⟩ := pairTest_spec isProbablePrime isProbablePrime_total x t
  cases b with
  | true => exact absurd (hiff.1 rfl) h
  | false => exact hb

theorem searchLoop_eq_noSkip (x : Int) (hx : 2 ≤ x) :
    ∀ (fuel : Nat) (t : Int) (steps : Nat), 1 ≤ t →
      searchLoop isProbablePrime x (x % 3) fuel t steps =
        searchLoopNoSkip isProbablePrime x fuel t steps := by
  intro fuel
  induction fuel with
  | zero => intro t steps _; rfl
  | succ fuel ih =>
    intro t steps ht
    rw [searchLoop.eq_2, searchLoopNoSkip.eq_2, ih (t + 2) (steps + 1) (by omega)]
    by_cases hskip : x % 3 = 0 ∧ Int.tmod t 3 = 0
    · have ht3 : t % 3 = 0 := by
        rw [← Int.tmod_eq_emod (by omega) (by omega)]; exact hskip.2
      rw [if_pos hskip, pairTest_false_of_not_passes x t (skip_valid x t hx ht hskip.1 ht3),
        bind_ret]
      rfl
    · rw [if_neg hskip]

theorem upeGoldbachNoSkip_search (E : Int) (heven : E % 2 = 0) (h4 : 4 ≤ E) :
    upeGoldbachNoSkip E =
      searchLoopNoSkip isProbablePrime (E / 2) (MAX_STEPS + 1) (startT (E / 2)) 0 := by
  unfold upeGoldbachNoSkip
  have hg : ¬ (Int.tmod E 2 ≠ 0 ∨ E < 4) := by
    rw [guard_iff, Int.odd_iff]; omega
  rw [if_neg hg]
  simp only []
  rw [Int.tdiv_eq_ediv (by omega) (by omega), Int.tmod_eq_emod (by omega) (by omega)]
  rfl

/-- C15: the mod-3 pruning rule is a valid optimisation: for every even
`E ≥ 4`, `upeGoldbach(E)` returns exactly the same result as the variant of
the search in which the skip branch is removed and every displacement is
tested; indeed whenever `E/2 mod 3 = 0` and `t mod 3 = 0` with `t ≥ 1`, the
pair `(E/2 - t, E/2 + t)` does not satisfy `p > 1`, `isProbablePrime(p)` and
`isProbablePrime(q)`. -/
theorem skip_is_valid_pruning (E : Int) (heven : E % 2 = 0) (h4 : 4 ≤ E) :
    upeGoldbach E = upeGoldbachNoSkip E ∧
      ∀ t : Int, 1 ≤ t → E / 2 % 3 = 0 → t % 3 = 0 →
        ¬ (E / 2 - t > 1 ∧ isProbablePrime (E / 2 - t) = .ret true ∧
          isProbablePrime (E / 2 + t) = .ret true) := by
  constructor
  · unfold upeGoldbach
    rw [upeGoldbachWith_search _ _ E heven h4, upeGoldbachNoSkip_search E heven h4]
    apply searchLoop_eq_noSkip (E / 2) (by omega)
    rcases startT_cases (E / 2) with h0 | h0 <;> omega
  · intro t ht hx3 ht3
    exact skip_valid (E / 2) t (by omega) ht hx3 ht3

/-- Witness of C15 at `E = 102`, where `E/2 = 51` is a multiple of 3. -/
theorem skip_is_valid_pruning_witness :
    upeGoldbach 102 = upeGoldbachNoSkip 102 ∧
      ∀ t : Int, 1 ≤ t → (102 : Int) / 2 % 3 = 0 → t % 3 = 0 →
        ¬ ((102 : Int) / 2 - t > 1 ∧ isProbablePrime (102 / 2 - t) = .ret true ∧
          isProbablePrime (102 / 2 + t) = .ret true) :=
  skip_is_valid_pruning 102 (by decide) (by decide)

/-! ## modPow: exact result and bounded intermediate values

The values are those recorded by the run `modPowTrace` that defines `modPow`. -/

/-- By definition `modPow` is the result component of the run `modPowTrace`. -/
theorem modPow_erase (base exp mod : Int) :
    modPow base exp mod = modPowTrace base exp mod >>= fun out => .ret out.1 := rfl

theorem natCast_lt_sq (m v : Nat) (h : v < m * m) :
    (0 : Int) ≤ (v : Int) ∧ (v : Int) < (m : Int) ^ 2 := by
  refine ⟨by positivity, ?_⟩
  rw [pow_two]
  exact_mod_cast h

theorem modPowLoopTrace_natCast (m : Nat) (hm : 2 ≤ m) :
    ∀ (fuel e b r : Nat), e ≤ fuel → r < m → b < m →
      ∃ tr, modPowLoopTrace (m : Int) fuel (b : Int) (e : Int) (r : Int) =
          .ret (((r * b ^ e % m : Nat) : Int), tr) ∧
        ∀ v ∈ tr, 0 ≤ v ∧ v < (m : Int) ^ 2 := by
  have hmpos : 0 < m := by omega
  have hsmall : ∀ v : Nat, v < m → v < m * m := fun v hv =>
    lt_of_lt_of_le hv (Nat.le_mul_of_pos_left m hmpos)
  intro fuel
  induction fuel with
  | zero =>
    intro e b r he hr _
    have : e = 0 := by omega
    subst this
    refine ⟨[], ?_, by simp⟩
    rw [modPowLoopTrace]
    simp [Nat.mod_eq_of_lt hr]
  | succ fuel ih =>
    intro e b r he hr hb
    rw [modPowLoopTrace]
    by_cases h0 : e = 0
    · subst h0
      refine ⟨[], ?_, by simp⟩
      simp [Nat.mod_eq_of_lt hr]
    · have hpos : (e : Int) > 0 := by
        have : 0 < e := Nat.pos_of_ne_zero h0
        exact_mod_cast this
      rw [if_pos hpos, land_one_natCast, shiftRight_one_natCast]
      have hb2 : bigRem ((b : Int) * (b : Int)) (m : Int) = .ret ((b * b % m : Nat) : Int) := by
        rw [← Nat.cast_mul]; exact bigRem_natCast _ _ (by omega)
      have hpow : b ^ e = (b * b) ^ (e / 2) * b ^ (e % 2) := by
        conv_lhs => rw [← Nat.div_add_mod e 2]
        rw [pow_add, pow_mul, pow_two]
      have hbb : b * b < m * m := Nat.mul_lt_mul'' hb hb
      have hbbm : b * b % m < m := Nat.mod_lt _ hmpos
      rcases Nat.mod_two_eq_zero_or_one e with h2 | h2
      · have hc : ¬ (((e % 2 : Nat) : Int) ≠ 0) := by simp [h2]
        obtain ⟨tr, hrun, htr⟩ := ih (e / 2) (b * b % m) r (by omega) hr hbbm
        have hval : r * (b * b % m) ^ (e / 2) % m = r * b ^ e % m := by
          rw [hpow, h2, pow_zero, mul_one]
          conv_lhs => rw [Nat.mul_mod, Nat.pow_mod, Nat.mod_mod, ← Nat.pow_mod, ← Nat.mul_mod]
        rw [if_neg hc, bind_ret, hb2, bind_ret, hrun, bind_ret, hval]
        refine ⟨[(b : Int) * (b : Int), ((b * b % m : Nat) : Int)] ++ tr, rfl, ?_⟩
        intro v hv
        simp only [List.cons_append, List.nil_append, List.mem_cons] at hv
        rcases hv with h | h | h
        · rw [h, ← Nat.cast_mul]; exact natCast_lt_sq m _ hbb
        · rw [h]; exact natCast_lt_sq m _ (hsmall _ hbbm)
        · exact htr v h
      · have hc : (((e % 2 : Nat) : Int) ≠ 0) := by simp [h2]
        have hrb : bigRem ((r : Int) * (b : Int)) (m : Int) = .ret ((r * b % m : Nat) : Int) := by
          rw [← Nat.cast_mul]; exact bigRem_natCast _ _ (by omega)
        have hrbm : r * b % m < m := Nat.mod_lt _ hmpos
        have hrbb : r * b < m * m := Nat.mul_lt_mul'' hr hb
        obtain ⟨tr, hrun, htr⟩ := ih (e / 2) (b * b % m) (r * b % m) (by omega) hrbm hbbm
        have hval : r * b % m * (b * b % m) ^ (e / 2) % m = r * b ^ e % m := by
          rw [hpow, h2, pow_one]
          conv_lhs =>
            rw [Nat.mul_mod, Nat.pow_mod, Nat.mod_mod, Nat.mod_mod, ← Nat.pow_mod, ← Nat.mul_mod]
          congr 1
          ring
        rw [if_pos hc, hrb, bind_ret, bind_ret, hb2, bind_ret, hrun, bind_ret, hval]
        refine ⟨[(r : Int) * (b : Int), ((r * b % m : Nat) : Int), (b : Int) * (b : Int),
          ((b * b % m : Nat) : Int)] ++ tr, rfl, ?_⟩
        intro v hv
        simp only [List.cons_append, List.nil_append, List.mem_cons] at hv
        rcases hv with h | h | h | h | h
        · rw [h, ← Nat.cast_mul]; exact natCast_lt_sq m _ hrbb
        · rw [h]; exact natCast_lt_sq m _ (hsmall _ hrbm)
        · rw [h, ← Nat.cast_mul]; exact natCast_lt_sq m _ hbb
        · rw [h]; exact natCast_lt_sq m _ (hsmall _ hbbm)
        · exact htr v h

/-- C18: `modPow` computes modular exponentiation exactly: for all integers
`base ≥ 0`, `exp ≥ 0` and `mod ≥ 2`, `modPow(base, exp, mod)` terminates and
equals `base ^ exp mod mod`, the result lies in `[0, mod)`, and every
intermediate value of the run (the reduced base, each product before its
reduction and each reduced value) is non-negative and below `mod ^ 2`.  The
run is `modPowTrace`, of which `modPow` is by definition the result. -/
theorem modPow_exact (b e m : Nat) (hm : 2 ≤ m) :
    modPow (b : Int) (e : Int) (m : Int) = .ret ((b ^ e % m : Nat) : Int) ∧
      ((0 : Int) ≤ ((b ^ e % m : Nat) : Int) ∧ ((b ^ e % m : Nat) : Int) < (m : Int)) ∧
      (∃ tr, modPowTrace (b : Int) (e : Int) (m : Int) = .ret (((b ^ e % m : Nat) : Int), tr) ∧
        ∀ v ∈ tr, 0 ≤ v ∧ v < (m : Int) ^ 2) ∧
      modPow (b : Int) (e : Int) (m : Int) =
        modPowTrace (b : Int) (e : Int) (m : Int) >>= fun out => .ret out.1 := by
  have hmpos : 0 < m := by omega
  have hlt : b ^ e % m < m := Nat.mod_lt _ hmpos
  refine ⟨modPow_natCast b e m hm, ⟨by positivity, by exact_mod_cast hlt⟩, ?_, modPow_erase _ _ _⟩
  have hbm : b % m < m := Nat.mod_lt _ hmpos
  obtain ⟨tr, hrun, htr⟩ := modPowLoopTrace_natCast m hm e e (b % m) 1 (le_refl _) (by omega) hbm
  unfold modPowTrace
  rw [bigRem_natCast b m (by omega), bind_ret, Int.natAbs_ofNat,
    show (1 : Int) = ((1 : Nat) : Int) from rfl, hrun, bind_ret]
  have hval : 1 * (b % m) ^ e % m = b ^ e % m := by
    rw [one_mul, Nat.pow_mod, Nat.mod_mod, ← Nat.pow_mod]
  rw [hval]
  refine ⟨((b % m : Nat) : Int) :: tr, rfl, ?_⟩
  · intro v hv
    simp only [List.mem_cons] at hv
    rcases hv with h | h
    · rw [h]
      exact natCast_lt_sq m _ (lt_of_lt_of_le hbm (Nat.le_mul_of_pos_left m hmpos))
    · exact htr v h

/-- Witness of C18 at `7 ^ 13 mod 10`. -/
theorem modPow_exact_witness :
    modPow ((7 : Nat) : Int) ((13 : Nat) : Int) ((10 : Nat) : Int) =
        .ret ((7 ^ 13 % 10 : Nat) : Int) ∧
      ((0 : Int) ≤ ((7 ^ 13 % 10 : Nat) : Int) ∧
        ((7 ^ 13 % 10 : Nat) : Int) < ((10 : Nat) : Int)) ∧
      (∃ tr, modPowTrace ((7 : Nat) : Int) ((13 : Nat) : Int) ((10 : Nat) : Int) =
          .ret (((7 ^ 13 % 10 : Nat) : Int), tr) ∧
        ∀ v ∈ tr, 0 ≤ v ∧ v < (((10 : Nat) : Int)) ^ 2) ∧
      modPow ((7 : Nat) : Int) ((13 : Nat) : Int) ((10 : Nat) : Int) =
        modPowTrace ((7 : Nat) : Int) ((13 : Nat) : Int) ((10 : Nat) : Int) >>=
          fun out => .ret out.1 :=
  modPow_exact 7 13 10 (by decide)

/-! ## toBigInt: which texts are rejected -/

theorem digitOk_ten (c : Char) : digitOk 10 c = isDecimalDigit c := by
  rw [Bool.eq_iff_iff]
  unfold digitOk digitVal isDecimalDigit
  split_ifs <;> simp <;> omega

theorem digitOk_radix (radix : Nat) (hr : radix = 2 ∨ radix = 8 ∨ radix = 16) (c : Char) :
    digitOk radix c = isRadixDigit radix c := by
  rw [Bool.eq_iff_iff]
  unfold digitOk digitVal isRadixDigit
  rcases hr with rfl | rfl | rfl <;> split_ifs <;> simp <;> omega

theorem digitsValue_eq_none (radix : Nat) :
    ∀ (cs : List Char) (acc : Nat),
      digitsValue radix cs acc = none ↔ cs.all (digitOk radix) = false := by
  intro cs
  induction cs with
  | nil => intro acc; simp [digitsValue]
  | cons c rest ih =>
    intro acc
    rw [digitsValue, List.all_cons]
    unfold digitOk
    cases hd : digitVal c with
    | none => simp
    | some v =>
      by_cases hv : v < radix
      · simp only [hv, if_true, decide_True, Bool.true_and]
        exact ih _
      · simp [hv]

theorem parseDigits_eq_none (radix : Nat) (cs : List Char) :
    parseDigits radix cs = none ↔ (cs.isEmpty = true ∨ cs.all (digitOk radix) = false) := by
  cases cs with
  | nil => simp [parseDigits]
  | cons c rest =>
    rw [parseDigits, digitsValue_eq_none]
    simp

theorem dropWhile_eq_self (p : Char → Bool) :
    ∀ l : List Char, (∀ c ∈ l, p c = false) → l.dropWhile p = l := by
  intro l h
  cases l with
  | nil => rfl
  | cons c rest =>
    rw [List.dropWhile_cons, h c (List.mem_cons_self _ _)]
    rfl

theorem trimJs_removeSeparators (l : List Char) :
    trimJs (removeSeparators l) = removeSeparators l := by
  have hws : ∀ c ∈ removeSeparators l, isJsWhiteSpace c = false := by
    intro c hc
    unfold removeSeparators at hc
    rw [List.mem_filter] at hc
    have := hc.2
    unfold isSeparator at this
    cases h : isJsWhiteSpace c with
    | false => rfl
    | true => rw [h] at this; simp at this
  unfold trimJs
  rw [dropWhile_eq_self _ _ hws,
    dropWhile_eq_self _ _ (fun c hc => hws c (List.mem_reverse.1 hc)), List.reverse_reverse]

theorem radixPrefix_some (cs : List Char) (radix : Nat) (h : radixPrefix cs = some radix) :
    (radix = 2 ∨ radix = 8 ∨ radix = 16) ∧ isSignedDecimal cs = false := by
  unfold radixPrefix at h
  match cs, h with
  | z :: x :: rest, h =>
    simp only at h
    split_ifs at h with hz h16 h8 h2 <;> simp only [Option.some.injEq] at h <;> subst h
    all_goals
      refine ⟨by simp, ?_⟩
      unfold isSignedDecimal
      have hsign : ¬ (z.toNat = 43 ∨ z.toNat = 45) := by omega
      simp only [hsign, if_false, List.all_cons]
      have hx : isDecimalDigit x = false := by
        unfold isDecimalDigit
        rw [Bool.and_eq_false_iff, decide_eq_false_iff_not, decide_eq_false_iff_not]
        omega
      rw [hx]
      simp

theorem map_eq_none_iff {α β : Type} (o : Option α) (f : α → β) : o.map f = none ↔ o = none := by
  cases o <;> simp

theorem parseSignedDecimal_eq_none (cs : List Char) :
    parseSignedDecimal cs = none ↔ isSignedDecimal cs = false := by
  cases cs with
  | nil => simp [parseSignedDecimal, isSignedDecimal]
  | cons c rest =>
    unfold parseSignedDecimal isSignedDecimal
    simp only []
    have hten : digitOk 10 = isDecimalDigit := funext digitOk_ten
    by_cases h43 : c.toNat = 43
    · rw [if_pos h43, if_pos (Or.inl h43), map_eq_none_iff, parseDigits_eq_none, hten]
      cases rest <;> simp
    · by_cases h45 : c.toNat = 45
      · rw [if_neg h43, if_pos h45, if_pos (Or.inr h45), map_eq_none_iff, parseDigits_eq_none,
          hten]
        cases rest <;> simp
      · have hsign : ¬ (c.toNat = 43 ∨ c.toNat = 45) := by omega
        rw [if_neg h43, if_neg h45, if_neg hsign, map_eq_none_iff, parseDigits_eq_none, hten]
        simp

theorem stringToBigInt_eq_none (l : List Char) :
    stringToBigInt (removeSeparators l) = none ↔ isBigIntText (removeSeparators l) = false := by
  unfold stringToBigInt isBigIntText
  rw [trimJs_removeSeparators]
  generalize removeSeparators l = cs
  by_cases hnil : cs = []
  · subst hnil; simp
  · have hemp : cs.isEmpty = false := by
      cases cs with
      | nil => exact absurd rfl hnil
      | cons _ _ => rfl
    rw [if_neg hnil, hemp, Bool.false_or]
    unfold isRadixLiteral
    cases hpre : radixPrefix cs with
    | none =>
      simp only [Bool.or_false]
      exact parseSignedDecimal_eq_none cs
    | some radix =>
      obtain ⟨hr, hdec⟩ := radixPrefix_some cs radix hpre
      have hdig : digitOk radix = isRadixDigit radix := funext (digitOk_radix radix hr)
      simp only [hdec, Bool.false_or, map_eq_none_iff, parseDigits_eq_none, hdig]
      cases (cs.drop 2).isEmpty <;> simp

/-- C14 as stated fails: the text `0x10` is not a decimal integer written with
digits only, yet `toBigInt` returns 16 for it and `computeUPE` shows the pair
`5 + 11`; and for the empty text `toBigInt` returns 0 and `computeUPE`
reports the domain message, not the invalid-input message. -/
theorem non_decimal_text_counterexample :
    (isSignedDecimal (removeSeparators "0x10".toList) = false ∧
        toBigInt (.text "0x10") = some 16 ∧ computeUPE "0x10" = .ret (.pair 5 11 3 6)) ∧
      (isSignedDecimal (removeSeparators "".toList) = false ∧
        toBigInt (.text "") = some 0 ∧ computeUPE "" = .ret (.message MSG_DOMAIN_UI)) := by
  decide

/-- C14, amended: for every input text that, after removal of white space,
comma and underscore characters, is not empty, not a decimal integer written
with digits only (optionally signed) and not a `0x`, `0o` or `0b` literal
(for example `12a4`), `toBigInt` returns `null` and `computeUPE` reports the
message "Invalid input. Enter an even integer (digits only)." -/
theorem invalid_input (input : String)
    (h : isBigIntText (removeSeparators input.toList) = false) :
    toBigInt (.text input) = none ∧ computeUPE input = .ret (.message MSG_INVALID) := by
  have hnone : toBigInt (.text input) = none := by
    unfold toBigInt
    exact (stringToBigInt_eq_none input.toList).2 h
  refine ⟨hnone, ?_⟩
  unfold computeUPE
  rw [hnone]
  rfl

/-- Witness of C14 (amended) at the text `12a4`. -/
theorem invalid_input_witness :
    toBigInt (.text "12a4") = none ∧ computeUPE "12a4" = .ret (.message MSG_INVALID) :=
  invalid_input "12a4" (by decide)

end UPE
